import Mathlib

/-!
Verification development for `earley.py`: a shallow embedding of the
Earley recognizer (grammar construction, the nullable fixpoint, the chart
construction sweep with reduction-chain compaction, and the recognition
query), together with theorems settling the specification claims.

Python's mutable state-set lists are modelled by explicit state passing of
a `List (List Item)` chart; every `while` loop of the source becomes a
fuel-indexed recursion returning `Option`, where `none` models both fuel
exhaustion and a run-time error of the source (IndexError / TypeError /
divergence).  The fuel parameter `F` of `earley` is handed afresh to every
loop, so any terminating run of the source is reproduced by a large enough
`F` (monotonicity lemmas below make the results fuel-independent).
-/

/-- `Rule` from the source: a left-hand symbol and right-hand sequence.
Equality is structural, as in `Rule.__eq__`. -/
structure Rule where
  symbol : String
  seq : List String
deriving DecidableEq

/-- `Item` from the source: rule, dot position, origin state-set index.
Equality is structural, as in `Item.__eq__`. -/
structure Item where
  rule : Rule
  dot : Nat
  start : Nat
deriving DecidableEq

/-- `Item.advance`: a new item with the dot moved one step right. -/
def Item.advance (it : Item) : Item := ⟨it.rule, it.dot + 1, it.start⟩

/-- Ordered association-list lookup, modelling Python dict key lookup
(first binding wins; insertion order preserved). -/
def lookupStr {α : Type} : List (String × α) → String → Option α
  | [], _ => none
  | (k, v) :: rest, s => if k = s then some v else lookupStr rest s

/-- `Grammar` from the source: terminal-predicate map and
nonterminal-rule map, both insertion ordered. -/
structure Grammar where
  terminals : List (String × (Char → Bool))
  nonterminals : List (String × List Rule)

/-- `Grammar.__init__`: stores the two maps.  The source performs no
validation whatsoever (`nullable` is the derived computation below). -/
def Grammar.init (t : List (String × (Char → Bool)))
    (n : List (String × List Rule)) : Grammar := ⟨t, n⟩

/-- `is_nullable` from `get_nullable_rules`: every right-hand symbol of
the rule is already in the nullable set. -/
def isNullableRule (nss : List String) (r : Rule) : Bool :=
  r.seq.all (fun x => x ∈ nss)

/-- One nonterminal of an `update_nss` pass: add the key if some of its
rules is nullable under the current set (`nss.add` keeps sets
duplicate-free, modelled add-if-absent). -/
def nssStep (acc : List String) (p : String × List Rule) : List String :=
  if p.2.any (isNullableRule acc) then
    (if p.1 ∈ acc then acc else acc ++ [p.1])
  else acc

/-- One pass of `update_nss`: walk the nonterminal map in order and add
each key with some rule all of whose symbols are already nullable.  The
set grows during the pass, as with Python's mutated closure variable. -/
def updateNss (nts : List (String × List Rule)) (nss : List String) : List String :=
  nts.foldl nssStep nss

/-- The `while True` loop of `get_nullable_rules`: repeat `update_nss`
until a pass adds nothing (sizes agree). -/
def nullableLoop (nts : List (String × List Rule)) : Nat → List String → List String
  | 0, nss => nss
  | fuel + 1, nss =>
      let nss' := updateNss nts nss
      if nss'.length = nss.length then nss' else nullableLoop nts fuel nss'

/-- `get_nullable_rules`: the fixpoint computation, starting empty.  The
fuel `nts.length + 1` is enough for the loop to reach its break (proved
below), so this equals the source's unbounded loop. -/
def computeNullable (nts : List (String × List Rule)) : List String :=
  nullableLoop nts (nts.length + 1) []

/-- `Grammar.nullable`, the set computed and stored by `__init__`. -/
def Grammar.nullable (g : Grammar) : List String :=
  computeNullable g.nonterminals

/-- The waiting-item test of lines 91 and 128:
`m.dot < len(m.rule) and m.rule[m.dot] == sym`. -/
def waitsFor (sym : String) (x : Item) : Bool :=
  decide (x.dot < x.rule.seq.length) && (x.rule.seq.getD x.dot "" == sym)

/-- Outcome of the inner `for m in stateset` scan of `get_topmost`. -/
inductive ScanRes where
  | ambig : ScanRes
  | found : Option Item → Bool → ScanRes
deriving DecidableEq

/-- The `for m in stateset` loop of `get_topmost`: return `ambig` as soon
as a second waiting item is seen (the source returns the current item
then); otherwise report the unique match, with the flag recording whether
its dot sits just before the end of its rule. -/
def scanWait : List Item → String → Option Item → Bool → ScanRes
  | [], _, m, f => ScanRes.found m f
  | x :: xs, sym, m, f =>
      if waitsFor sym x then
        match m with
        | some _ => ScanRes.ambig
        | none => scanWait xs sym (some x) (x.dot = x.rule.seq.length - 1)
      else scanWait xs sym m f

/-- Read state-set `n` of the chart (Python `statesets[n]`). -/
def getSS (sts : List (List Item)) (n : Nat) : List Item := sts.getD n []

/-- Replace state-set `n` of the chart. -/
def setSS (sts : List (List Item)) (n : Nat) (ss : List Item) : List (List Item) :=
  sts.set n ss

/-- `get_topmost`: walk up the deterministic reduction path.  Each step
scans `statesets[item.start]`; with exactly one waiting item whose dot is
at the second-to-last position the walk advances it and repeats, and in
every other case the current item is returned.  `none` models the
source's divergence (its `while True` has no bound). -/
def getTopmost : Nat → List (List Item) → Item → Option Item
  | 0, _, _ => none
  | fuel + 1, statesets, item =>
      match scanWait (getSS statesets item.start) item.rule.symbol none false with
      | ScanRes.ambig => some item
      | ScanRes.found (some m) true => getTopmost fuel statesets (Item.advance m)
      | ScanRes.found _ _ => some item

/-- Append `x` to a state-set unless already present (the source's
`if .. not in ..: append`). -/
def addIfAbsent (ss : List Item) (x : Item) : List Item :=
  if x ∈ ss then ss else ss ++ [x]

/-- The generic completion loop (lines 127-131): walk
`statesets[src]` by index — it may be the very list being extended when
`src = i`, as in Python — and advance every item waiting for `sym` into
`statesets[i]` unless present. -/
def completeLoop (sym : String) (src i : Nat) :
    Nat → Nat → List (List Item) → Option (List (List Item))
  | 0, _, _ => none
  | fuel + 1, k, sts =>
      let l := getSS sts src
      if h : k < l.length then
        let x := l.get ⟨k, h⟩
        let sts' := if waitsFor sym x
          then setSS sts i (addIfAbsent (getSS sts i) (Item.advance x))
          else sts
        completeLoop sym src i fuel (k + 1) sts'
      else some sts

/-- The completion branch (lines 119-131): find the topmost item of the
reduction path; if it differs from the completed item insert just it,
otherwise perform the generic completion. -/
def completeStep (F : Nat) (i : Nat) (item : Item) (sts : List (List Item)) :
    Option (List (List Item)) :=
  match getTopmost F sts item with
  | none => none
  | some topmost =>
      if topmost ≠ item then
        some (setSS sts i (addIfAbsent (getSS sts i) topmost))
      else
        completeLoop item.rule.symbol item.start i F 0 sts

/-- `Grammar.__getitem__` as used by the prediction loop: the terminal
map is consulted first, so a symbol present in both maps yields the
predicate and the `for rule in ...` iteration raises TypeError (`none`). -/
def predictRules (g : Grammar) (sym : String) : Option (List Rule) :=
  match lookupStr g.terminals sym with
  | some _ => none
  | none => lookupStr g.nonterminals sym

/-- The prediction branch (lines 143-155): add `(rule, 0, i)` for every
rule of the predicted symbol unless present, then the automatic nullable
completion. -/
def predictStep (g : Grammar) (i : Nat) (item : Item) (sym : String)
    (sts : List (List Item)) : Option (List (List Item)) :=
  match predictRules g sym with
  | none => none
  | some rules =>
      let ss1 := rules.foldl (fun ss r => addIfAbsent ss ⟨r, 0, i⟩) (getSS sts i)
      let ss2 := if sym ∈ g.nullable then addIfAbsent ss1 (Item.advance item) else ss1
      some (setSS sts i ss2)

/-- The scan branch (lines 133-141): if the terminal predicate accepts
the token, create `statesets[i+1]` when `i` is the last index and append
the advanced item there — with no membership check, as in the source. -/
def scanStep (i : Nat) (item : Item) (p : Char → Bool) (tok : Char)
    (sts : List (List Item)) : List (List Item) :=
  if p tok then
    let sts1 := if i = sts.length - 1 then sts ++ [[]] else sts
    setSS sts1 (i + 1) (getSS sts1 (i + 1) ++ [Item.advance item])
  else sts

/-- Dispatch for one item of state-set `i` (lines 116-155), with the
source's `if`/`elif` order: completion, then scan (terminal and input
remaining), then prediction, else nothing.  A dot beyond the rule's end
would make `rule[item.dot]` raise IndexError in the source (`none`);
such items never arise. -/
def processItem (g : Grammar) (s : List Char) (F : Nat) (i : Nat) (item : Item)
    (sts : List (List Item)) : Option (List (List Item)) :=
  if item.dot = item.rule.seq.length then
    completeStep F i item sts
  else if item.dot < item.rule.seq.length then
    let sym := item.rule.seq.getD item.dot ""
    match lookupStr g.terminals sym with
    | some p =>
        if i < s.length then
          some (scanStep i item p (s.getD i ' ') sts)
        else if (lookupStr g.nonterminals sym).isSome then
          predictStep g i item sym sts
        else some sts
    | none =>
        if (lookupStr g.nonterminals sym).isSome then
          predictStep g i item sym sts
        else some sts
  else none

/-- The inner `while j < len(stateset)` loop: process the items of
state-set `i` in discovery order, rereading the growing set each step. -/
def innerLoop (g : Grammar) (s : List Char) (F : Nat) (i : Nat) :
    Nat → Nat → List (List Item) → Option (List (List Item))
  | 0, _, _ => none
  | fuel + 1, j, sts =>
      let ss := getSS sts i
      if h : j < ss.length then
        match processItem g s F i (ss.get ⟨j, h⟩) sts with
        | none => none
        | some sts' => innerLoop g s F i fuel (j + 1) sts'
      else some sts

/-- The outer `while i < len(statesets)` loop. -/
def outerLoop (g : Grammar) (s : List Char) (F : Nat) :
    Nat → Nat → List (List Item) → Option (List (List Item))
  | 0, _, _ => none
  | fuel + 1, i, sts =>
      if i < sts.length then
        match innerLoop g s F i F 0 sts with
        | none => none
        | some sts' => outerLoop g s F fuel (i + 1) sts'
      else some sts

/-- Lines 104-108: seed state-set 0 with `(rule, 0, 0)` for every rule of
the first nonterminal.  `none` models the IndexError on an empty
nonterminal map and the TypeError when `grammar[symbol]` yields a
terminal predicate. -/
def initSeeds (g : Grammar) : Option (List Item) :=
  match g.nonterminals with
  | [] => none
  | (k, _) :: _ =>
      match lookupStr g.terminals k with
      | some _ => none
      | none =>
          match lookupStr g.nonterminals k with
          | some rules => some (rules.map (fun r => ⟨r, 0, 0⟩))
          | none => none

/-- `earley(grammar, string)`: build the chart. -/
def earley (F : Nat) (g : Grammar) (s : List Char) : Option (List (List Item)) :=
  match initSeeds g with
  | none => none
  | some ss0 => outerLoop g s F F 0 [ss0]

/-- `completed_items`: items of the final state-set with the dot at the
end of the rule and origin 0 (no constraint on the left-hand symbol). -/
def completedItems (sts : List (List Item)) : List Item :=
  (sts.getLastD []).filter (fun x =>
    decide (x.dot = x.rule.seq.length) && decide (x.start = 0))

/-- `is_valid_parse`: chart length is input length + 1 and exactly one
completed item. -/
def isValidParse (F : Nat) (g : Grammar) (s : List Char) : Option Bool :=
  (earley F g s).map (fun sts =>
    decide (sts.length = s.length + 1) && decide ((completedItems sts).length = 1))

/-! ### Naive engine (spec baseline for the compaction claim)

The spec calls the reduction-chain compaction "a pure optimization" over
naive Earley completion (section 4.2's generic completion).  The
following variant — completion always generic, everything else
identical — follows the spec's description of that baseline. -/

/-- Dispatch as `processItem`, but the completion branch always performs
the generic completion of spec section 4.2 (no `get_topmost`). -/
def processItemNaive (g : Grammar) (s : List Char) (F : Nat) (i : Nat) (item : Item)
    (sts : List (List Item)) : Option (List (List Item)) :=
  if item.dot = item.rule.seq.length then
    completeLoop item.rule.symbol item.start i F 0 sts
  else if item.dot < item.rule.seq.length then
    let sym := item.rule.seq.getD item.dot ""
    match lookupStr g.terminals sym with
    | some p =>
        if i < s.length then
          some (scanStep i item p (s.getD i ' ') sts)
        else if (lookupStr g.nonterminals sym).isSome then
          predictStep g i item sym sts
        else some sts
    | none =>
        if (lookupStr g.nonterminals sym).isSome then
          predictStep g i item sym sts
        else some sts
  else none

/-- Inner worklist loop of the naive engine. -/
def innerLoopNaive (g : Grammar) (s : List Char) (F : Nat) (i : Nat) :
    Nat → Nat → List (List Item) → Option (List (List Item))
  | 0, _, _ => none
  | fuel + 1, j, sts =>
      let ss := getSS sts i
      if h : j < ss.length then
        match processItemNaive g s F i (ss.get ⟨j, h⟩) sts with
        | none => none
        | some sts' => innerLoopNaive g s F i fuel (j + 1) sts'
      else some sts

/-- Outer loop of the naive engine. -/
def outerLoopNaive (g : Grammar) (s : List Char) (F : Nat) :
    Nat → Nat → List (List Item) → Option (List (List Item))
  | 0, _, _ => none
  | fuel + 1, i, sts =>
      if i < sts.length then
        match innerLoopNaive g s F i F 0 sts with
        | none => none
        | some sts' => outerLoopNaive g s F fuel (i + 1) sts'
      else some sts

/-- Chart construction without reduction-chain compaction. -/
def earleyNaive (F : Nat) (g : Grammar) (s : List Char) : Option (List (List Item)) :=
  match initSeeds g with
  | none => none
  | some ss0 => outerLoopNaive g s F F 0 [ss0]

/-- The recognition query over the naive chart. -/
def isValidParseNaive (F : Nat) (g : Grammar) (s : List Char) : Option Bool :=
  (earleyNaive F g s).map (fun sts =>
    decide (sts.length = s.length + 1) && decide ((completedItems sts).length = 1))

/-! ### Spec-side validation checkers (for the construction-error claim)

Modelled from the spec: section 4.1 demands that grammar construction
fail with `UndefinedSymbol(s)` when a rule references a symbol in neither
map and with `DuplicateSymbol(s)` when a symbol is in both maps.  The
source's `Grammar.__init__` contains no such checks; these definitions
express the spec's conditions so the theorems can compare. -/

/-- Symbols referenced by some rule's right-hand side but present in
neither map (the spec's `UndefinedSymbol` condition). -/
def specUndefinedSymbols (t : List (String × (Char → Bool)))
    (n : List (String × List Rule)) : List String :=
  ((n.map (fun p => p.2)).flatten.map Rule.seq).flatten.filter
    (fun s => (lookupStr t s).isNone && (lookupStr n s).isNone)

/-- Symbols declared in both maps (the spec's `DuplicateSymbol`
condition). -/
def specDuplicateSymbols (t : List (String × (Char → Bool)))
    (n : List (String × List Rule)) : List String :=
  (t.map Prod.fst).filter (fun s => (lookupStr n s).isSome)

/-! ### The least-fixpoint characterization of nullability -/

/-- The nonterminal map holds rule `r` under key `s`. -/
def hasRule (nts : List (String × List Rule)) (s : String) (r : Rule) : Prop :=
  ∃ rs, (s, rs) ∈ nts ∧ r ∈ rs

/-- The least fixpoint the spec demands: `s` is nullable iff the map
holds some rule under `s` whose right-hand symbols are all nullable
(vacuously an epsilon rule).  As an inductive predicate this is by
construction the least such set. -/
inductive NullableSym (nts : List (String × List Rule)) : String → Prop where
  | intro (s : String) (r : Rule) :
      hasRule nts s r → (∀ x ∈ r.seq, NullableSym nts x) → NullableSym nts s

/-! ### Derivation trees (for the recognition claim) -/

/-- A parse tree: a terminal leaf holding its matched token, or an
application of a grammar rule to child trees. -/
inductive PTree where
  | leaf : String → Char → PTree
  | node : Rule → List PTree → PTree

/-- The root symbol of a tree. -/
def PTree.rootSym : PTree → String
  | PTree.leaf s _ => s
  | PTree.node r _ => r.symbol

mutual

/-- The token sequence a tree derives. -/
def PTree.yield : PTree → List Char
  | PTree.leaf _ c => [c]
  | PTree.node _ cs => PTree.yieldList cs

/-- Concatenated yields of a list of trees. -/
def PTree.yieldList : List PTree → List Char
  | [] => []
  | t :: ts => PTree.yield t ++ PTree.yieldList ts

end

mutual

/-- Well-formedness of a tree over a grammar: a leaf uses a declared
terminal whose predicate accepts its token; a node uses a rule declared
under its left-hand symbol, with one child per right-hand symbol, each
child rooted at that symbol and itself well-formed. -/
def wfTree (g : Grammar) : PTree → Bool
  | PTree.leaf s c =>
      match lookupStr g.terminals s with
      | some p => p c
      | none => false
  | PTree.node r cs =>
      (match lookupStr g.nonterminals r.symbol with
       | some rs => decide (r ∈ rs)
       | none => false) && wfChildren g r.seq cs

/-- Children match the right-hand symbols positionally. -/
def wfChildren (g : Grammar) : List String → List PTree → Bool
  | [], [] => true
  | s :: ss, t :: ts => (PTree.rootSym t == s) && wfTree g t && wfChildren g ss ts
  | _, _ => false

end

/-- A complete derivation of input `s` from the start symbol `start`. -/
def DerivesFull (g : Grammar) (start : String) (s : List Char) (t : PTree) : Prop :=
  wfTree g t = true ∧ t.rootSym = start ∧ t.yield = s

/-! ### Concrete grammars used by the claims -/

/-- A one-character terminal predicate. -/
def chPred (c : Char) : Char → Bool := fun x => x == c

/-- Grammar `{S → A, A → a}`: a unit chain above the start symbol. -/
def gSA : Grammar := ⟨[("a", chPred 'a')],
  [("S", [⟨"S", ["A"]⟩]), ("A", [⟨"A", ["a"]⟩])]⟩

/-- Grammar `{S → X, X → a Y, Y → b}`: a deterministic reduction chain
whose compaction changes the recognition answer on `"ab"`. -/
def gAB : Grammar := ⟨[("a", chPred 'a'), ("b", chPred 'b')],
  [("S", [⟨"S", ["X"]⟩]), ("X", [⟨"X", ["a", "Y"]⟩]), ("Y", [⟨"Y", ["b"]⟩])]⟩

/-- Grammar `{S → T | a, T → S}`: the cyclic unit rules on which
`get_topmost` never terminates. -/
def gCyc : Grammar := ⟨[("a", chPred 'a')],
  [("S", [⟨"S", ["T"]⟩, ⟨"S", ["a"]⟩]), ("T", [⟨"T", ["S"]⟩])]⟩

/-- Grammar whose start symbol carries the same rule twice. -/
def gDup : Grammar := ⟨[("a", chPred 'a')],
  [("S", [⟨"S", ["a"]⟩, ⟨"S", ["a"]⟩])]⟩

/-- Rule `A → a A` of the right-recursion grammar. -/
def ruleC : Rule := ⟨"A", ["a", "A"]⟩

/-- Rule `A → ε` of the right-recursion grammar. -/
def ruleN : Rule := ⟨"A", []⟩

/-- Grammar `{A → a A | ε}` of the right-recursion boundedness test. -/
def gA : Grammar := ⟨[("a", chPred 'a')], [("A", [ruleC, ruleN])]⟩

/-- The input `"a" * k`. -/
def aTok (k : Nat) : List Char := List.replicate k 'a'

/-- State-set 0 of the `gA` chart. -/
def S0A : List Item := [⟨ruleC, 0, 0⟩, ⟨ruleN, 0, 0⟩]

/-- State-set 1 of the `gA` chart. -/
def S1A : List Item := [⟨ruleC, 1, 0⟩, ⟨ruleC, 0, 1⟩, ⟨ruleN, 0, 1⟩, ⟨ruleC, 2, 0⟩]

/-- State-set `m + 1` of the `gA` chart, for `m ≥ 1`: the shape every
later state-set settles into. -/
def SSA (m : Nat) : List Item :=
  [⟨ruleC, 1, m⟩, ⟨ruleC, 0, m + 1⟩, ⟨ruleN, 0, m + 1⟩, ⟨ruleC, 2, m⟩, ⟨ruleC, 2, 0⟩]

/-- The full chart `earley` builds for `gA` on `"a" * k`, `k ≥ 2`. -/
def chartFullA (k : Nat) : List (List Item) :=
  S0A :: S1A :: (List.range (k - 1)).map (fun t => SSA (t + 1))

/-- A `gA` chart with full state-sets up to `i - 1` and `last` as
state-set `i` (for `2 ≤ i`). -/
def chartMidA (i : Nat) (last : List Item) : List (List Item) :=
  S0A :: S1A :: ((List.range (i - 2)).map (fun t => SSA (t + 1)) ++ [last])

/-- As `chartMidA`, with additionally `nxt` as state-set `i + 1`. -/
def chartMidA2 (i : Nat) (last nxt : List Item) : List (List Item) :=
  S0A :: S1A :: ((List.range (i - 2)).map (fun t => SSA (t + 1)) ++ [last, nxt])

/-- The chart state just before the sweep of state-set `i`, `2 ≤ i ≤ k`:
full prefix plus the scanned seed of state-set `i`. -/
def chartPreA (i : Nat) : List (List Item) :=
  chartMidA i [⟨ruleC, 1, i - 1⟩]

/-- State-set `i` of the `gA` sweep after its prediction step. -/
def partA (i : Nat) : List Item :=
  [⟨ruleC, 1, i - 1⟩, ⟨ruleC, 0, i⟩, ⟨ruleN, 0, i⟩, ⟨ruleC, 2, i - 1⟩]

/-- What the reduction-chain walk needs of a chart: state-set 0 holds no
item waiting for `"A"`, and every state-set `m ∈ [1, M]` holds exactly
the waiting item `A → a • A` of origin `m - 1`, with its dot at the
second-to-last position. -/
def walkShape (C : List (List Item)) (M : Nat) : Prop :=
  scanWait (getSS C 0) "A" none false = ScanRes.found none false ∧
  ∀ m, 1 ≤ m → m ≤ M → scanWait (getSS C m) "A" none false =
    ScanRes.found (some ⟨ruleC, 1, m - 1⟩) true

/-- A grammar with an empty nonterminal map. -/
def gEmpty : Grammar := ⟨[], []⟩

/-- Maps with an undefined right-hand symbol (`"x"`) and a symbol
declared both as terminal and nonterminal (`"d"`). -/
def gBadT : List (String × (Char → Bool)) := [("d", chPred 'd')]

/-- Nonterminal half of the invalid declaration. -/
def gBadN : List (String × List Rule) := [("S", [⟨"S", ["x", "d"]⟩]), ("d", [])]

/-- State-set holding exactly one item waiting for `"S"`, with its dot
not at the second-to-last position. -/
def sts6 : List (List Item) := [[⟨⟨"X", ["S", "b"]⟩, 0, 0⟩]]

/-- A completed item for symbol `"S"` with origin 0. -/
def item6 : Item := ⟨⟨"S", ["a"]⟩, 1, 0⟩

/-- The unique derivation tree of `"a"` in `gSA`. -/
def tSA : PTree :=
  PTree.node ⟨"S", ["A"]⟩ [PTree.node ⟨"A", ["a"]⟩ [PTree.leaf "a" 'a']]

/-- The chart state of the `gCyc` run on `"a"` when the completion of
`S → a •` is reached: state-set 0 fully predicted, state-set 1 holding
the scanned item. -/
def stsCyc : List (List Item) :=
  [[⟨⟨"S", ["T"]⟩, 0, 0⟩, ⟨⟨"S", ["a"]⟩, 0, 0⟩, ⟨⟨"T", ["S"]⟩, 0, 0⟩],
   [⟨⟨"S", ["a"]⟩, 1, 0⟩]]

/-- An item of state-set `i` triggers a scan append into state-set
`i + 1` exactly when its dot sits on a declared terminal, input remains,
and the predicate accepts the current token. -/
def scannable (g : Grammar) (s : List Char) (i : Nat) (x : Item) : Bool :=
  decide (x.dot < x.rule.seq.length) &&
  (match lookupStr g.terminals (x.rule.seq.getD x.dot "") with
   | some p => decide (i < s.length) && p (s.getD i ' ')
   | none => false)

/-- The rule list of the first declared nonterminal (the start symbol). -/
def startRules (g : Grammar) : List Rule :=
  match g.nonterminals with
  | [] => []
  | (_, rs) :: _ => rs

/-- Invariant of the sweep over state-set `i` at item index `j`: every
state-set is duplicate-free, the chart extends at most one set past `i`,
and when state-set `i + 1` exists it is exactly the advance-image of the
scannable items among the first `j` items of state-set `i` (when it does
not exist, no such item was scannable yet). -/
def ChartInv (g : Grammar) (s : List Char) (i j : Nat) (sts : List (List Item)) : Prop :=
  (∀ n, (getSS sts n).Nodup) ∧
  i < sts.length ∧ sts.length ≤ i + 2 ∧
  (sts.length = i + 1 → ((getSS sts i).take j).filter (scannable g s i) = []) ∧
  (sts.length = i + 2 →
    getSS sts (i + 1) =
      (((getSS sts i).take j).filter (scannable g s i)).map Item.advance)

/-- How completion and prediction touch the chart during the sweep of
state-set `i`: same length, every other state-set untouched, state-set
`i` only appended to, duplicate-freeness of it preserved. -/
def ExtendsAt (i : Nat) (sts sts' : List (List Item)) : Prop :=
  sts'.length = sts.length ∧
  (∀ n, n ≠ i → getSS sts' n = getSS sts n) ∧
  (∃ t, getSS sts' i = getSS sts i ++ t) ∧
  ((getSS sts i).Nodup → (getSS sts' i).Nodup)

/-! ## Lemmas about the `get_topmost` scan -/

/-- Once a match is recorded, the scan either finishes with it or aborts
as ambiguous when any further waiting item appears. -/
theorem scanWait_acc (l : List Item) (sym : String) (m : Item) (f : Bool) :
    scanWait l sym (some m) f =
      if l.filter (waitsFor sym) = [] then ScanRes.found (some m) f
      else ScanRes.ambig := by
  induction l with
  | nil => simp [scanWait]
  | cons x xs ih =>
      by_cases hx : waitsFor sym x
      · simp [scanWait, hx, List.filter_cons]
      · simp [scanWait, hx, List.filter_cons, ih]

/-- The full scan classified by the list of waiting items: none found,
a unique one found (with its dot-at-penultimate flag), or ambiguity. -/
theorem scanWait_start (l : List Item) (sym : String) :
    scanWait l sym none false =
      match l.filter (waitsFor sym) with
      | [] => ScanRes.found none false
      | [m] => ScanRes.found (some m) (decide (m.dot = m.rule.seq.length - 1))
      | _ :: _ :: _ => ScanRes.ambig := by
  induction l with
  | nil => simp [scanWait]
  | cons x xs ih =>
      by_cases hx : waitsFor sym x
      · simp only [scanWait, hx, if_true, List.filter_cons, scanWait_acc]
        rcases hxs : xs.filter (waitsFor sym) with _ | ⟨y, ys⟩ <;> simp [hxs]
      · simp only [scanWait, hx, if_false, List.filter_cons, ih]
        simp [hx]

/-! ## Claim C6: the compaction walk's advance condition -/

/-- Claim C6 (counterexample): the walk is claimed to advance exactly
when the origin state-set holds exactly one waiting item; here it holds
exactly one waiting item (whose dot is not at the second-to-last
position) yet `get_topmost` returns the completed item unchanged rather
than the advanced waiting item. -/
theorem claimC6_cex :
    ((getSS sts6 0).filter (waitsFor "S")).length = 1 ∧
    getTopmost 9 sts6 item6 = some item6 ∧
    some item6 ≠ some (Item.advance ⟨⟨"X", ["S", "b"]⟩, 0, 0⟩) := by
  refine ⟨by decide, by decide, by decide⟩

/-- Claim C6 (amended): one step of the `get_topmost` walk advances to
the advanced form of the unique waiting item exactly when the origin
state-set contains exactly one item waiting for the completed symbol AND
that item's dot sits at the second-to-last position of its rule; in every
other case (zero waiting items, several, or a unique one with an earlier
dot) the walk stops and returns the current item. -/
theorem claimC6 (fuel : Nat) (sts : List (List Item)) (item : Item) :
    getTopmost (fuel + 1) sts item =
      (if ((getSS sts item.start).filter (waitsFor item.rule.symbol)).length = 1 ∧
          (((getSS sts item.start).filter (waitsFor item.rule.symbol)).headD
              ⟨⟨"", []⟩, 0, 0⟩).dot =
            (((getSS sts item.start).filter (waitsFor item.rule.symbol)).headD
              ⟨⟨"", []⟩, 0, 0⟩).rule.seq.length - 1
       then getTopmost fuel sts
          (Item.advance (((getSS sts item.start).filter (waitsFor item.rule.symbol)).headD
            ⟨⟨"", []⟩, 0, 0⟩))
       else some item) := by
  have h := scanWait_start (getSS sts item.start) item.rule.symbol
  rcases hf : (getSS sts item.start).filter (waitsFor item.rule.symbol) with _ | ⟨m, _ | ⟨m2, rest⟩⟩
  · rw [hf] at h
    simp only [getTopmost, h, hf]
    simp
  · rw [hf] at h
    by_cases hc : m.dot = m.rule.seq.length - 1
    · simp only [getTopmost, h, hf, decide_eq_true hc]
      simp [hc]
    · simp only [getTopmost, h, hf, decide_eq_false hc]
      simp [hc]
  · rw [hf] at h
    simp only [getTopmost, h, hf]
    simp

/-! ## Claim C4: grammar-construction validation -/

/-- Claim C4 (counterexample): these maps reference the undefined symbol
`"x"` and declare `"d"` both as terminal and nonterminal, yet grammar
construction produces a grammar object holding them unchanged — the
source's `__init__` raises neither `UndefinedSymbol` nor
`DuplicateSymbol`. -/
theorem claimC4_cex :
    specUndefinedSymbols gBadT gBadN = ["x"] ∧
    specDuplicateSymbols gBadT gBadN = ["d"] ∧
    (Grammar.init gBadT gBadN).terminals = gBadT ∧
    (Grammar.init gBadT gBadN).nonterminals = gBadN :=
  ⟨by decide, by decide, rfl, rfl⟩

/-- Claim C4 (amended): grammar construction performs no symbol
validation at all — for every pair of maps, including ones with
undefined or duplicated symbols, it produces a grammar object holding
exactly those maps and never fails. -/
theorem claimC4 (t : List (String × (Char → Bool))) (n : List (String × List Rule)) :
    (Grammar.init t n).terminals = t ∧ (Grammar.init t n).nonterminals = n :=
  ⟨rfl, rfl⟩

/-! ## Claim C10: seeding and the empty nonterminal map -/

/-- Claim C10: `earley` seeds state-set 0 with `(rule, 0, 0)` for every
rule of the first nonterminal of the declaration order (the start
symbol), and on a grammar whose nonterminal map is empty it raises an
out-of-range error (modelled `none`) instead of returning a chart. -/
theorem claimC10 (g : Grammar) (s : List Char) (F : Nat) :
    (g.nonterminals = [] → earley F g s = none) ∧
    (∀ k rules rest, g.nonterminals = (k, rules) :: rest →
      lookupStr g.terminals k = none →
      initSeeds g = some (rules.map (fun r => ⟨r, 0, 0⟩)) ∧
      earley F g s = outerLoop g s F F 0 [rules.map (fun r => ⟨r, 0, 0⟩)]) := by
  constructor
  · intro h
    simp [earley, initSeeds, h]
  · intro k rules rest hn ht
    have hseed : initSeeds g = some (rules.map (fun r => ⟨r, 0, 0⟩)) := by
      simp [initSeeds, hn, ht, lookupStr]
    exact ⟨hseed, by simp [earley, hseed]⟩

/-- Claim C10 (witness): both halves applied to concrete grammars. -/
theorem claimC10_witness :
    earley 5 gEmpty ['a'] = none ∧
    initSeeds gSA = some [⟨⟨"S", ["A"]⟩, 0, 0⟩] :=
  ⟨(claimC10 gEmpty ['a'] 5).1 rfl,
   (((claimC10 gSA ['a'] 5).2 "S" [⟨"S", ["A"]⟩] [("A", [⟨"A", ["a"]⟩])] rfl rfl)).1⟩

/-! ## Claim C2: the operational acceptance condition -/

/-- Claim C2 (counterexample): on grammar `gSA = {S → A, A → a}` and
input `"a"` the chart has length 2 = 1 + 1 and its final state-set
contains exactly one completed origin-0 item whose left-hand side is the
start symbol `"S"` — so the claim's condition holds — yet
`is_valid_parse` returns `false`, because `completed_items` never checks
the left-hand symbol and also counts the completed item `A → a`. -/
theorem claimC2_cex :
    isValidParse 50 gSA ['a'] = some false ∧
    ((earley 50 gSA ['a']).getD []).length = 1 + 1 ∧
    ((((earley 50 gSA ['a']).getD []).getLastD []).filter (fun x =>
        decide (x.dot = x.rule.seq.length) && decide (x.start = 0) &&
        (x.rule.symbol == "S"))).length = 1 := by
  refine ⟨by decide, by decide, by decide⟩

/-- Claim C2 (amended): `is_valid_parse` succeeds iff (a) the chart has
exactly `len(tokens) + 1` state-sets and (b) the final state-set holds
exactly one item with dot at the end of its rule and origin 0 — with no
condition on the item's left-hand symbol. -/
theorem claimC2 (F : Nat) (g : Grammar) (s : List Char) (sts : List (List Item))
    (h : earley F g s = some sts) :
    isValidParse F g s = some true ↔
      sts.length = s.length + 1 ∧
      ((sts.getLastD []).filter (fun x =>
        decide (x.dot = x.rule.seq.length) && decide (x.start = 0))).length = 1 := by
  simp [isValidParse, h, completedItems]

/-- Claim C2 (witness): the amended equivalence evaluated on `gSA` and
input `"a"`. -/
theorem claimC2_witness :
    isValidParse 50 gSA ['a'] = some true ↔
      ((earley 50 gSA ['a']).getD []).length = 1 + 1 ∧
      ((((earley 50 gSA ['a']).getD []).getLastD []).filter (fun x =>
        decide (x.dot = x.rule.seq.length) && decide (x.start = 0))).length = 1 :=
  claimC2 50 gSA ['a'] ((earley 50 gSA ['a']).getD []) (by decide)

/-! ## Claim C3: the compaction is not a pure optimization -/

/-- Claim C3: on grammar `{S → X, X → a Y, Y → b}` and input `"ab"` the
engine with reduction-chain compaction accepts while the naive engine
(generic completion only, the spec's stated baseline) rejects — the
compaction changes the acceptance result, so it is not a pure
optimization. -/
theorem claimC3 :
    isValidParse 60 gAB ['a', 'b'] = some true ∧
    isValidParseNaive 60 gAB ['a', 'b'] = some false := by
  refine ⟨by decide, by decide⟩

/-! ## Claim C8 (counterexample): duplicate items in the chart -/

/-- Claim C8 (counterexample): when the start symbol's rule list repeats
a rule, the unchecked seeding duplicates the initial item and the
unchecked scan append then copies the duplicate into state-set 1 — both
state-sets of the returned chart contain duplicates. -/
theorem claimC8_cex :
    (earley 20 gDup ['a']).isSome = true ∧
    ¬ (getSS ((earley 20 gDup ['a']).getD []) 0).Nodup ∧
    ¬ (getSS ((earley 20 gDup ['a']).getD []) 1).Nodup := by
  refine ⟨by decide, by decide, by decide⟩

/-! ## Claim C1: recognition versus unique derivability -/

/-- Children of a node cannot be empty when symbols remain. -/
theorem wfChildren_cons_nil (g : Grammar) (s : String) (ss : List String) :
    wfChildren g (s :: ss) [] = false := rfl

/-- Children of a node cannot remain when no symbols do. -/
theorem wfChildren_nil_cons (g : Grammar) (t : PTree) (ts : List PTree) :
    wfChildren g [] (t :: ts) = false := rfl

/-- Unfolding of the positional child check. -/
theorem wfChildren_cons_cons (g : Grammar) (s : String) (ss : List String)
    (t : PTree) (ts : List PTree) :
    wfChildren g (s :: ss) (t :: ts) =
      ((PTree.rootSym t == s) && wfTree g t && wfChildren g ss ts) := rfl

/-- A one-symbol right-hand side has exactly one child, rooted at that
symbol and well-formed. -/
theorem wfChildren_one (g : Grammar) (s : String) (cs : List PTree)
    (h : wfChildren g [s] cs = true) :
    ∃ c, cs = [c] ∧ PTree.rootSym c = s ∧ wfTree g c = true := by
  cases cs with
  | nil => rw [wfChildren_cons_nil] at h; exact absurd h (by simp)
  | cons c cs' =>
      cases cs' with
      | nil =>
          rw [wfChildren_cons_cons] at h
          simp only [Bool.and_eq_true, beq_iff_eq] at h
          exact ⟨c, rfl, h.1.1, h.1.2⟩
      | cons c2 cs'' =>
          rw [wfChildren_cons_cons] at h
          rw [wfChildren_nil_cons] at h
          simp at h

/-- Every complete derivation of `"a"` from `"S"` in `gSA` is the tree
`tSA`. -/
theorem gSA_unique_deriv : ∀ t, DerivesFull gSA "S" ['a'] t → t = tSA := by
  rintro t ⟨hwf, hroot, hyield⟩
  cases t with
  | leaf s c =>
      simp only [PTree.rootSym] at hroot
      subst hroot
      simp [wfTree, gSA, lookupStr] at hwf
  | node r cs =>
      simp only [PTree.rootSym] at hroot
      rw [wfTree] at hwf
      rw [hroot] at hwf
      have hlook : lookupStr gSA.nonterminals "S" = some [⟨"S", ["A"]⟩] := rfl
      rw [hlook] at hwf
      simp only [Bool.and_eq_true, decide_eq_true_eq, List.mem_singleton] at hwf
      obtain ⟨hr, hch⟩ := hwf
      subst hr
      obtain ⟨c1, hcs, hc1root, hc1wf⟩ := wfChildren_one _ _ _ hch
      subst hcs
      cases c1 with
      | leaf s c =>
          simp only [PTree.rootSym] at hc1root
          subst hc1root
          simp [wfTree, gSA, lookupStr] at hc1wf
      | node r' cs' =>
          simp only [PTree.rootSym] at hc1root
          rw [wfTree] at hc1wf
          rw [hc1root] at hc1wf
          have hlook2 : lookupStr gSA.nonterminals "A" = some [⟨"A", ["a"]⟩] := rfl
          rw [hlook2] at hc1wf
          simp only [Bool.and_eq_true, decide_eq_true_eq, List.mem_singleton] at hc1wf
          obtain ⟨hr', hch'⟩ := hc1wf
          subst hr'
          obtain ⟨c2, hcs', hc2root, hc2wf⟩ := wfChildren_one _ _ _ hch'
          subst hcs'
          cases c2 with
          | node r'' cs'' =>
              simp only [PTree.rootSym] at hc2root
              rw [wfTree] at hc2wf
              rw [hc2root] at hc2wf
              have hlook3 : lookupStr gSA.nonterminals "a" = none := rfl
              rw [hlook3] at hc2wf
              simp at hc2wf
          | leaf s'' ch =>
              simp only [PTree.rootSym] at hc2root
              subst hc2root
              rw [wfTree] at hc2wf
              have hlook4 : lookupStr gSA.terminals "a" = some (chPred 'a') := rfl
              rw [hlook4] at hc2wf
              have hcc : ch = 'a' := by simpa [chPred] using hc2wf
              subst hcc
              rfl

/-- Claim C1 (counterexample): on grammar `gSA = {S → A, A → a}` the
input `"a"` has exactly one complete derivation from the start symbol
`"S"`, yet `is_valid_parse` returns `false` — the query counts every
completed origin-0 item of the final state-set (here also `A → a •`)
without restricting to the start symbol. -/
theorem claimC1_cex :
    (∃! t, DerivesFull gSA "S" ['a'] t) ∧ isValidParse 50 gSA ['a'] = some false := by
  refine ⟨⟨tSA, ⟨by decide, rfl, rfl⟩, fun t ht => gSA_unique_deriv t ht⟩, by decide⟩

/-- Claim C1 (amended): `is_valid_parse(G, s)` is true iff the chart has
`len(s) + 1` state-sets and the final state-set holds exactly one
completed item of origin 0 (of any left-hand symbol); it is not a
decision procedure for "at least one derivation, and that derivation
unique". -/
theorem claimC1 (F : Nat) (g : Grammar) (s : List Char) (sts : List (List Item))
    (h : earley F g s = some sts) :
    isValidParse F g s = some true ↔
      sts.length = s.length + 1 ∧ (completedItems sts).length = 1 := by
  simp [isValidParse, h]

/-- Claim C1 (witness): the amended equivalence on `gAB` and `"ab"`. -/
theorem claimC1_witness :
    isValidParse 60 gAB ['a', 'b'] = some true ↔
      ((earley 60 gAB ['a', 'b']).getD []).length = 2 + 1 ∧
      (completedItems ((earley 60 gAB ['a', 'b']).getD [])).length = 1 :=
  claimC1 60 gAB ['a', 'b'] ((earley 60 gAB ['a', 'b']).getD []) (by decide)

/-! ## Claim C7: the nullable set is the order-independent least fixpoint -/

/-- One `nssStep` only appends. -/
theorem nssStep_ex (acc : List String) (p : String × List Rule) :
    ∃ t, nssStep acc p = acc ++ t := by
  unfold nssStep
  by_cases h1 : p.2.any (isNullableRule acc)
  · by_cases h2 : p.1 ∈ acc
    · exact ⟨[], by simp [h1, h2]⟩
    · exact ⟨[p.1], by simp [h1, h2]⟩
  · exact ⟨[], by simp [h1]⟩

/-- A whole pass only appends. -/
theorem foldl_nssStep_ex (l : List (String × List Rule)) :
    ∀ nss, ∃ t, l.foldl nssStep nss = nss ++ t := by
  induction l with
  | nil => exact fun nss => ⟨[], by simp⟩
  | cons p l ih =>
      intro nss
      obtain ⟨t1, h1⟩ := nssStep_ex nss p
      obtain ⟨t2, h2⟩ := ih (nssStep nss p)
      refine ⟨t1 ++ t2, ?_⟩
      rw [List.foldl_cons, h2, h1, List.append_assoc]

/-- `updateNss` only appends. -/
theorem updateNss_ex (nts : List (String × List Rule)) (nss : List String) :
    ∃ t, updateNss nts nss = nss ++ t :=
  foldl_nssStep_ex nts nss

/-- A pass with unchanged size added nothing. -/
theorem updateNss_eq_of_length (nts : List (String × List Rule)) (nss : List String)
    (h : (updateNss nts nss).length = nss.length) : updateNss nts nss = nss := by
  obtain ⟨t, ht⟩ := updateNss_ex nts nss
  rw [ht] at h ⊢
  have hlen : t.length = 0 := by
    rw [List.length_append] at h; omega
  have : t = [] := List.length_eq_zero.mp hlen
  simp [this]

/-- Everything a pass adds is nullable in the least-fixpoint sense,
provided the input set was. -/
theorem foldl_nssStep_sound (nts : List (String × List Rule)) :
    ∀ (l : List (String × List Rule)) (nss : List String),
      (∀ p ∈ l, p ∈ nts) → (∀ x ∈ nss, NullableSym nts x) →
      ∀ x ∈ l.foldl nssStep nss, NullableSym nts x := by
  intro l
  induction l with
  | nil => intro nss _ hs x hx; exact hs x hx
  | cons p l ih =>
      intro nss hl hs x hx
      rw [List.foldl_cons] at hx
      refine ih (nssStep nss p) (fun q hq => hl q (List.mem_cons_of_mem _ hq)) ?_ x hx
      intro y hy
      unfold nssStep at hy
      by_cases h1 : p.2.any (isNullableRule nss)
      · by_cases h2 : p.1 ∈ nss
        · rw [if_pos h1, if_pos h2] at hy; exact hs y hy
        · rw [if_pos h1, if_neg h2] at hy
          rcases List.mem_append.mp hy with hy' | hy'
          · exact hs y hy'
          · have hyp : y = p.1 := by simpa using hy'
            subst hyp
            obtain ⟨r, hr, hnr⟩ := List.any_eq_true.mp h1
            refine NullableSym.intro p.1 r ⟨p.2, ?_, hr⟩ ?_
            · have hp : p ∈ nts := hl p (by simp)
              simpa using hp
            · intro z hz
              have : z ∈ nss := by
                have := List.all_eq_true.mp hnr z hz
                simpa using this
              exact hs z this
      · rw [if_neg h1] at hy; exact hs y hy

/-- `nssStep` keeps the set duplicate-free. -/
theorem nssStep_nodup (acc : List String) (p : String × List Rule)
    (h : acc.Nodup) : (nssStep acc p).Nodup := by
  unfold nssStep
  by_cases h1 : p.2.any (isNullableRule acc)
  · by_cases h2 : p.1 ∈ acc
    · simpa [h1, h2]
    · simp only [h1, h2, if_true, if_false]
      simpa [List.nodup_append, h2] using h
  · simpa [h1]

/-- `nssStep` only adds nonterminal keys. -/
theorem nssStep_keys (nts : List (String × List Rule))
    (acc : List String) (p : String × List Rule) (hp : p ∈ nts)
    (h : ∀ x ∈ acc, x ∈ nts.map Prod.fst) :
    ∀ x ∈ nssStep acc p, x ∈ nts.map Prod.fst := by
  intro x hx
  unfold nssStep at hx
  by_cases h1 : p.2.any (isNullableRule acc)
  · by_cases h2 : p.1 ∈ acc
    · rw [if_pos h1, if_pos h2] at hx; exact h x hx
    · rw [if_pos h1, if_neg h2] at hx
      rcases List.mem_append.mp hx with hx' | hx'
      · exact h x hx'
      · have : x = p.1 := by simpa using hx'
        subst this
        exact List.mem_map.mpr ⟨p, hp, rfl⟩
  · rw [if_neg h1] at hx; exact h x hx

/-- Passes keep the set duplicate-free and inside the key set. -/
theorem foldl_nssStep_nodup_keys (nts : List (String × List Rule)) :
    ∀ (l : List (String × List Rule)) (nss : List String),
      (∀ p ∈ l, p ∈ nts) → nss.Nodup → (∀ x ∈ nss, x ∈ nts.map Prod.fst) →
      (l.foldl nssStep nss).Nodup ∧
      (∀ x ∈ l.foldl nssStep nss, x ∈ nts.map Prod.fst) := by
  intro l
  induction l with
  | nil => intro nss _ hn hk; exact ⟨hn, hk⟩
  | cons p l ih =>
      intro nss hl hn hk
      rw [List.foldl_cons]
      exact ih (nssStep nss p) (fun q hq => hl q (List.mem_cons_of_mem _ hq))
        (nssStep_nodup nss p hn)
        (nssStep_keys nts nss p (hl p (by simp)) hk)

/-- `updateNss` keeps the set duplicate-free and inside the key set. -/
theorem updateNss_nodup_keys (nts : List (String × List Rule)) (nss : List String)
    (hn : nss.Nodup) (hk : ∀ x ∈ nss, x ∈ nts.map Prod.fst) :
    (updateNss nts nss).Nodup ∧ (∀ x ∈ updateNss nts nss, x ∈ nts.map Prod.fst) :=
  foldl_nssStep_nodup_keys nts nts nss (fun _ h => h) hn hk

/-- A duplicate-free subset of the keys is no longer than the map. -/
theorem length_le_of_nodup_keys (nts : List (String × List Rule)) (nss : List String)
    (hn : nss.Nodup) (hk : ∀ x ∈ nss, x ∈ nts.map Prod.fst) :
    nss.length ≤ nts.length := by
  have h1 : nss.toFinset.card = nss.length := List.toFinset_card_of_nodup hn
  have h2 : nss.toFinset ⊆ (nts.map Prod.fst).toFinset := by
    intro x hx
    exact List.mem_toFinset.mpr (hk x (List.mem_toFinset.mp hx))
  have h3 := Finset.card_le_card h2
  have h4 : (nts.map Prod.fst).toFinset.card ≤ (nts.map Prod.fst).length :=
    List.toFinset_card_le _
  simp only [List.length_map] at h4
  omega

/-- With enough fuel the loop reaches a fixpoint of `updateNss` — hence
the source's `while True` breaks and `computeNullable`'s fuel is
faithful. -/
theorem nullableLoop_stable (nts : List (String × List Rule)) :
    ∀ (fuel : Nat) (nss : List String), nss.Nodup →
      (∀ x ∈ nss, x ∈ nts.map Prod.fst) →
      nts.length + 1 ≤ fuel + nss.length →
      updateNss nts (nullableLoop nts fuel nss) = nullableLoop nts fuel nss := by
  intro fuel
  induction fuel with
  | zero =>
      intro nss hn hk hf
      have := length_le_of_nodup_keys nts nss hn hk
      omega
  | succ fuel ih =>
      intro nss hn hk hf
      rw [nullableLoop]
      by_cases heq : (updateNss nts nss).length = nss.length
      · rw [if_pos heq]
        have he := updateNss_eq_of_length nts nss heq
        rw [he]
        exact he
      · rw [if_neg heq]
        obtain ⟨hn', hk'⟩ := updateNss_nodup_keys nts nss hn hk
        obtain ⟨t, ht⟩ := updateNss_ex nts nss
        have hgrow : nss.length < (updateNss nts nss).length := by
          rw [ht, List.length_append] at heq ⊢
          omega
        exact ih (updateNss nts nss) hn' hk' (by omega)

/-- The computed nullable set is a fixpoint of a full pass. -/
theorem computeNullable_stable (nts : List (String × List Rule)) :
    updateNss nts (computeNullable nts) = computeNullable nts := by
  unfold computeNullable
  exact nullableLoop_stable nts (nts.length + 1) [] (by simp) (by simp) (by simp)

/-- `isNullableRule` is monotone in the set. -/
theorem isNullableRule_mono (nss nss' : List String) (r : Rule)
    (hsub : ∀ x ∈ nss, x ∈ nss') (h : isNullableRule nss r = true) :
    isNullableRule nss' r = true := by
  unfold isNullableRule at h ⊢
  rw [List.all_eq_true] at h ⊢
  intro z hz
  have := h z hz
  simp only [decide_eq_true_eq] at this ⊢
  exact hsub z this

/-- Partial passes never remove elements. -/
theorem foldl_nssStep_mem_mono (l : List (String × List Rule)) :
    ∀ nss x, x ∈ nss → x ∈ l.foldl nssStep nss := by
  induction l with
  | nil => intro nss x hx; exact hx
  | cons p l ih =>
      intro nss x hx
      rw [List.foldl_cons]
      refine ih (nssStep nss p) x ?_
      obtain ⟨t, ht⟩ := nssStep_ex nss p
      rw [ht]
      exact List.mem_append_left _ hx

/-- `nssStep` never removes elements. -/
theorem nssStep_sub (acc : List String) (p : String × List Rule) :
    ∀ x ∈ acc, x ∈ nssStep acc p := by
  intro x hx
  obtain ⟨t, ht⟩ := nssStep_ex acc p
  rw [ht]; exact List.mem_append_left _ hx

/-- A pass adds the key of every pair with a rule nullable under the
incoming set. -/
theorem foldl_nssStep_adds (l : List (String × List Rule)) :
    ∀ (nss : List String) (p : String × List Rule), p ∈ l →
      p.2.any (isNullableRule nss) = true → p.1 ∈ l.foldl nssStep nss := by
  induction l with
  | nil => intro _ _ h; exact absurd h (by simp)
  | cons q l ih =>
      intro nss p hp hany
      rw [List.foldl_cons]
      rcases List.mem_cons.mp hp with hq | hp'
      · subst hq
        refine foldl_nssStep_mem_mono l (nssStep nss p) p.1 ?_
        unfold nssStep
        rw [if_pos hany]
        by_cases h2 : p.1 ∈ nss
        · rw [if_pos h2]; exact h2
        · rw [if_neg h2]; simp
      · refine ih (nssStep nss q) p hp' ?_
        obtain ⟨r, hr, hnr⟩ := List.any_eq_true.mp hany
        exact List.any_eq_true.mpr ⟨r, hr,
          isNullableRule_mono nss (nssStep nss q) r (nssStep_sub nss q) hnr⟩

/-- `updateNss` adds the key of every satisfied pair. -/
theorem updateNss_adds (nts : List (String × List Rule)) (nss : List String)
    (p : String × List Rule) (hp : p ∈ nts)
    (hany : p.2.any (isNullableRule nss) = true) : p.1 ∈ updateNss nts nss :=
  foldl_nssStep_adds nts nss p hp hany

/-- Every symbol of the least fixpoint lands in the computed set. -/
theorem computeNullable_complete (nts : List (String × List Rule)) (s : String)
    (h : NullableSym nts s) : s ∈ computeNullable nts := by
  induction h with
  | intro s r hrule hall ih =>
      obtain ⟨rs, hmem, hr⟩ := hrule
      have hany : (s, rs).2.any (isNullableRule (computeNullable nts)) = true := by
        refine List.any_eq_true.mpr ⟨r, hr, ?_⟩
        unfold isNullableRule
        rw [List.all_eq_true]
        intro z hz
        simpa using ih z hz
      have := updateNss_adds nts (computeNullable nts) (s, rs) hmem hany
      rwa [computeNullable_stable nts] at this

/-- Every symbol of the computed set is in the least fixpoint. -/
theorem computeNullable_sound (nts : List (String × List Rule)) (s : String)
    (h : s ∈ computeNullable nts) : NullableSym nts s := by
  unfold computeNullable at h
  have main : ∀ (fuel : Nat) (nss : List String),
      (∀ x ∈ nss, NullableSym nts x) →
      ∀ x ∈ nullableLoop nts fuel nss, NullableSym nts x := by
    intro fuel
    induction fuel with
    | zero => intro nss hs x hx; exact hs x hx
    | succ fuel ih =>
        intro nss hs x hx
        rw [nullableLoop] at hx
        by_cases heq : (updateNss nts nss).length = nss.length
        · rw [if_pos heq] at hx
          exact foldl_nssStep_sound nts nts nss (fun _ h => h) hs x hx
        · rw [if_neg heq] at hx
          exact ih (updateNss nts nss)
            (foldl_nssStep_sound nts nts nss (fun _ h => h) hs) x hx
  exact main (nts.length + 1) [] (by simp) s h

/-- The least fixpoint only depends on which rules the map holds under
which key, not on declaration order. -/
theorem nullableSym_invariant (nts nts' : List (String × List Rule))
    (hiff : ∀ s r, hasRule nts s r ↔ hasRule nts' s r) :
    ∀ s, NullableSym nts s → NullableSym nts' s := by
  intro s h
  induction h with
  | intro s r hrule _ ih =>
      exact NullableSym.intro s r ((hiff s r).mp hrule) ih

/-- Claim C7: the computed nullable set equals the least fixpoint — a
symbol is in it iff some of its rules has every right-hand symbol in the
set (vacuously for an epsilon rule) — and it is order-independent: two
maps holding the same rules under the same keys (in any nonterminal or
rule order) compute the same set. -/
theorem claimC7 (nts : List (String × List Rule)) :
    (∀ s, s ∈ computeNullable nts ↔ NullableSym nts s) ∧
    (∀ nts', (∀ s r, hasRule nts s r ↔ hasRule nts' s r) →
      ∀ s, (s ∈ computeNullable nts ↔ s ∈ computeNullable nts')) := by
  have hmain : ∀ (m : List (String × List Rule)) (s : String),
      s ∈ computeNullable m ↔ NullableSym m s :=
    fun m s => ⟨computeNullable_sound m s, computeNullable_complete m s⟩
  refine ⟨hmain nts, fun nts' hiff s => ?_⟩
  rw [hmain nts, hmain nts']
  exact ⟨nullableSym_invariant nts nts' hiff s,
    nullableSym_invariant nts' nts (fun s r => (hiff s r).symm) s⟩

/-- Claim C7 (witness): both halves at the grammar `{A → a A | ε}` and
its rule-order permutation. -/
theorem claimC7_witness :
    ("A" ∈ computeNullable gA.nonterminals ↔ NullableSym gA.nonterminals "A") ∧
    ("A" ∈ computeNullable gA.nonterminals ↔
      "A" ∈ computeNullable [("A", [ruleN, ruleC])]) :=
  ⟨(claimC7 gA.nonterminals).1 "A",
   (claimC7 gA.nonterminals).2 [("A", [ruleN, ruleC])]
     (by
       intro s r
       constructor
       · rintro ⟨rs, hmem, hr⟩
         refine ⟨[ruleN, ruleC], ?_, ?_⟩
         · have : s = "A" ∧ rs = [ruleC, ruleN] := by simpa [gA] using hmem
           simp [this.1]
         · have : s = "A" ∧ rs = [ruleC, ruleN] := by simpa [gA] using hmem
           rw [this.2] at hr
           simp only [List.mem_cons, List.not_mem_nil, or_false] at hr ⊢
           tauto
       · rintro ⟨rs, hmem, hr⟩
         refine ⟨[ruleC, ruleN], ?_, ?_⟩
         · have : s = "A" ∧ rs = [ruleN, ruleC] := by simpa using hmem
           simp [gA, this.1]
         · have : s = "A" ∧ rs = [ruleN, ruleC] := by simpa using hmem
           rw [this.2] at hr
           simp only [List.mem_cons, List.not_mem_nil, or_false] at hr ⊢
           tauto)
     "A"⟩

/-! ## Claim C5: the compaction walk need not terminate -/

/-- In `stsCyc` the walk step from `T → S •` reaches `S → T •`. -/
theorem getTopmost_cyc_step1 (f : Nat) :
    getTopmost (f + 1) stsCyc ⟨⟨"T", ["S"]⟩, 1, 0⟩ =
    getTopmost f stsCyc ⟨⟨"S", ["T"]⟩, 1, 0⟩ := rfl

/-- In `stsCyc` the walk step from `S → T •` reaches `T → S •`. -/
theorem getTopmost_cyc_step2 (f : Nat) :
    getTopmost (f + 1) stsCyc ⟨⟨"S", ["T"]⟩, 1, 0⟩ =
    getTopmost f stsCyc ⟨⟨"T", ["S"]⟩, 1, 0⟩ := rfl

/-- The two-cycle: from either item of the cycle the walk never returns,
whatever the fuel. -/
theorem getTopmost_cyc_pair : ∀ f : Nat,
    getTopmost f stsCyc ⟨⟨"T", ["S"]⟩, 1, 0⟩ = none ∧
    getTopmost f stsCyc ⟨⟨"S", ["T"]⟩, 1, 0⟩ = none := by
  intro f
  induction f with
  | zero => exact ⟨rfl, rfl⟩
  | succ f ih => exact ⟨(getTopmost_cyc_step1 f).trans ih.2,
      (getTopmost_cyc_step2 f).trans ih.1⟩

/-- Completing `S → a •` in `stsCyc` enters the two-cycle: `get_topmost`
diverges for every fuel. -/
theorem getTopmost_cyc_entry : ∀ f : Nat,
    getTopmost f stsCyc ⟨⟨"S", ["a"]⟩, 1, 0⟩ = none := by
  intro f
  cases f with
  | zero => rfl
  | succ f =>
      have hstep : getTopmost (f + 1) stsCyc ⟨⟨"S", ["a"]⟩, 1, 0⟩ =
          getTopmost f stsCyc ⟨⟨"T", ["S"]⟩, 1, 0⟩ := rfl
      exact hstep.trans (getTopmost_cyc_pair f).1

/-- Claim C5: on the grammar `{S → T | a, T → S}` and input `"a"` the
chart construction never returns a chart, for any amount of fuel — the
`get_topmost` walk alternates between `T → S •` and `S → T •` in
state-set 0 forever, so the source's `while True` loop diverges. -/
theorem claimC5 (F : Nat) : earley F gCyc ['a'] = none := by
  rcases F with _ | _ | _ | _ | f
  · rfl
  · decide
  · decide
  · decide
  · have htop : getTopmost (f + 4) stsCyc ⟨⟨"S", ["a"]⟩, 1, 0⟩ = none :=
      getTopmost_cyc_entry (f + 4)
    have hc : completeStep (f + 4) 1 ⟨⟨"S", ["a"]⟩, 1, 0⟩ stsCyc = none := by
      unfold completeStep
      rw [htop]
    have hp : processItem gCyc ['a'] (f + 4) 1 ⟨⟨"S", ["a"]⟩, 1, 0⟩ stsCyc = none := hc
    have hinner : innerLoop gCyc ['a'] (f + 4) 1 (f + 4) 0 stsCyc = none := by
      show (match processItem gCyc ['a'] (f + 4) 1 ⟨⟨"S", ["a"]⟩, 1, 0⟩ stsCyc with
            | none => none
            | some sts' => innerLoop gCyc ['a'] (f + 4) 1 (f + 3) 1 sts') = none
      rw [hp]
    have houter2 : outerLoop gCyc ['a'] (f + 4) (f + 3) 1 stsCyc = none := by
      show (match innerLoop gCyc ['a'] (f + 4) 1 (f + 4) 0 stsCyc with
            | none => none
            | some sts' => outerLoop gCyc ['a'] (f + 4) (f + 2) 2 sts') = none
      rw [hinner]
    show outerLoop gCyc ['a'] (f + 4) (f + 3) 1 stsCyc = none
    exact houter2

/-! ## Claim C8 (amended): duplicate-freeness of the chart -/


theorem length_setSS (sts : List (List Item)) (n : Nat) (ss : List Item) :
    (setSS sts n ss).length = sts.length := by
  simp [setSS]

theorem getSS_nil (n : Nat) : getSS [] n = [] := by
  cases n <;> rfl

theorem getSS_cons_succ (a : List Item) (sts : List (List Item)) (n : Nat) :
    getSS (a :: sts) (n + 1) = getSS sts n := rfl

theorem getSS_cons_zero (a : List Item) (sts : List (List Item)) :
    getSS (a :: sts) 0 = a := rfl

theorem setSS_oob (sts : List (List Item)) (n : Nat) (ss : List Item)
    (h : sts.length ≤ n) : setSS sts n ss = sts := by
  induction sts generalizing n with
  | nil => rfl
  | cons a sts ih =>
      cases n with
      | zero => simp at h
      | succ n =>
          simp only [setSS, List.set]
          simp only [List.length_cons] at h
          have := ih n (by omega)
          simpa [setSS] using this

theorem getSS_setSS_self (sts : List (List Item)) (n : Nat) (ss : List Item)
    (h : n < sts.length) : getSS (setSS sts n ss) n = ss := by
  induction sts generalizing n with
  | nil => simp at h
  | cons a sts ih =>
      cases n with
      | zero => rfl
      | succ n =>
          simp only [List.length_cons] at h
          exact ih n (by omega)

theorem getSS_setSS_ne (sts : List (List Item)) (n m : Nat) (ss : List Item)
    (h : m ≠ n) : getSS (setSS sts n ss) m = getSS sts m := by
  induction sts generalizing n m with
  | nil => cases n <;> rfl
  | cons a sts ih =>
      cases n with
      | zero =>
          cases m with
          | zero => exact absurd rfl h
          | succ m => rfl
      | succ n =>
          cases m with
          | zero => rfl
          | succ m => exact ih n m (by omega)

theorem addIfAbsent_ex (ss : List Item) (x : Item) :
    ∃ t, addIfAbsent ss x = ss ++ t := by
  unfold addIfAbsent
  by_cases h : x ∈ ss
  · exact ⟨[], by simp [h]⟩
  · exact ⟨[x], by simp [h]⟩

theorem addIfAbsent_nodup (ss : List Item) (x : Item) (h : ss.Nodup) :
    (addIfAbsent ss x).Nodup := by
  unfold addIfAbsent
  by_cases hx : x ∈ ss
  · simpa [hx]
  · simp only [hx, if_false]
    simpa [List.nodup_append, hx] using h

theorem extendsAt_refl (i : Nat) (sts : List (List Item)) : ExtendsAt i sts sts :=
  ⟨rfl, fun _ _ => rfl, ⟨[], by simp⟩, fun h => h⟩

theorem extendsAt_trans (i : Nat) (s1 s2 s3 : List (List Item))
    (h1 : ExtendsAt i s1 s2) (h2 : ExtendsAt i s2 s3) : ExtendsAt i s1 s3 := by
  obtain ⟨hl1, ho1, ⟨t1, ht1⟩, hn1⟩ := h1
  obtain ⟨hl2, ho2, ⟨t2, ht2⟩, hn2⟩ := h2
  exact ⟨hl2.trans hl1, fun n hn => (ho2 n hn).trans (ho1 n hn),
    ⟨t1 ++ t2, by rw [ht2, ht1, List.append_assoc]⟩, fun h => hn2 (hn1 h)⟩

theorem extendsAt_add (i : Nat) (sts : List (List Item)) (x : Item) :
    ExtendsAt i sts (setSS sts i (addIfAbsent (getSS sts i) x)) := by
  by_cases hi : i < sts.length
  · refine ⟨length_setSS sts i _, fun n hn => getSS_setSS_ne sts i n _ hn, ?_, ?_⟩
    · rw [getSS_setSS_self sts i _ hi]
      exact addIfAbsent_ex _ x
    · rw [getSS_setSS_self sts i _ hi]
      exact addIfAbsent_nodup _ x
  · rw [setSS_oob sts i _ (by omega)]
    exact extendsAt_refl i sts

theorem completeLoop_extends (sym : String) (src i : Nat) :
    ∀ (fuel k : Nat) (sts out : List (List Item)),
      completeLoop sym src i fuel k sts = some out → ExtendsAt i sts out := by
  intro fuel
  induction fuel with
  | zero => intro k sts out h; exact absurd h (by simp [completeLoop])
  | succ fuel ih =>
      intro k sts out h
      rw [completeLoop] at h
      by_cases hk : k < (getSS sts src).length
      · rw [dif_pos hk] at h
        simp only [] at h
        split at h
        · exact extendsAt_trans i _ _ _ (extendsAt_add i sts _) (ih (k + 1) _ out h)
        · exact ih (k + 1) _ out h
      · rw [dif_neg hk] at h
        cases h
        exact extendsAt_refl i _

theorem completeStep_extends (F i : Nat) (item : Item) (sts out : List (List Item))
    (h : completeStep F i item sts = some out) : ExtendsAt i sts out := by
  unfold completeStep at h
  cases htop : getTopmost F sts item with
  | none => rw [htop] at h; cases h
  | some topmost =>
      rw [htop] at h
      dsimp only at h
      by_cases hne : topmost ≠ item
      · rw [if_pos hne] at h
        cases h
        exact extendsAt_add i sts topmost
      · rw [if_neg hne] at h
        exact completeLoop_extends _ _ i F 0 sts out h

theorem foldl_addIfAbsent_ex (i : Nat) (rules : List Rule) :
    ∀ ss : List Item,
      (∃ t, rules.foldl (fun ss r => addIfAbsent ss ⟨r, 0, i⟩) ss = ss ++ t) ∧
      (ss.Nodup → (rules.foldl (fun ss r => addIfAbsent ss ⟨r, 0, i⟩) ss).Nodup) := by
  induction rules with
  | nil => intro ss; exact ⟨⟨[], by simp⟩, fun h => h⟩
  | cons r rules ih =>
      intro ss
      obtain ⟨⟨t2, ht2⟩, hn2⟩ := ih (addIfAbsent ss ⟨r, 0, i⟩)
      obtain ⟨t1, ht1⟩ := addIfAbsent_ex ss ⟨r, 0, i⟩
      constructor
      · exact ⟨t1 ++ t2, by rw [List.foldl_cons, ht2, ht1, List.append_assoc]⟩
      · intro hss
        rw [List.foldl_cons]
        exact hn2 (addIfAbsent_nodup ss _ hss)

theorem predictStep_extends (g : Grammar) (i : Nat) (item : Item) (sym : String)
    (sts out : List (List Item))
    (h : predictStep g i item sym sts = some out) : ExtendsAt i sts out := by
  unfold predictStep at h
  cases hr : predictRules g sym with
  | none => rw [hr] at h; cases h
  | some rules =>
      rw [hr] at h
      simp only [Option.some_inj] at h
      subst h
      obtain ⟨⟨t1, ht1⟩, hn1⟩ := foldl_addIfAbsent_ex i rules (getSS sts i)
      by_cases hnul : sym ∈ g.nullable
      · simp only [hnul, if_true]
        by_cases hi : i < sts.length
        · obtain ⟨t2, ht2⟩ := addIfAbsent_ex
            (rules.foldl (fun ss r => addIfAbsent ss ⟨r, 0, i⟩) (getSS sts i)) (Item.advance item)
          refine ⟨length_setSS sts i _, fun n hn => getSS_setSS_ne sts i n _ hn, ?_, ?_⟩
          · rw [getSS_setSS_self sts i _ hi, ht2, ht1]
            exact ⟨t1 ++ t2, by rw [List.append_assoc]⟩
          · rw [getSS_setSS_self sts i _ hi]
            intro hss
            exact addIfAbsent_nodup _ _ (hn1 hss)
        · rw [setSS_oob sts i _ (by omega)]
          exact extendsAt_refl i sts
      · simp only [hnul, if_false]
        by_cases hi : i < sts.length
        · refine ⟨length_setSS sts i _, fun n hn => getSS_setSS_ne sts i n _ hn, ?_, ?_⟩
          · rw [getSS_setSS_self sts i _ hi, ht1]
            exact ⟨t1, rfl⟩
          · rw [getSS_setSS_self sts i _ hi]
            exact hn1
        · rw [setSS_oob sts i _ (by omega)]
          exact extendsAt_refl i sts

theorem advance_injective : Function.Injective Item.advance := by
  intro a b h
  cases a; cases b
  simp only [Item.advance, Item.mk.injEq] at h
  simp only [Item.mk.injEq]
  exact ⟨h.1, by omega, h.2.2⟩

theorem take_filter_succ (l : List Item) (q : Item → Bool) (j : Nat) (hj : j < l.length) :
    (l.take (j + 1)).filter q =
      (l.take j).filter q ++ (if q l[j] then [l[j]] else []) := by
  rw [List.take_succ, List.filter_append, List.getElem?_eq_getElem hj]
  by_cases hq : q l[j] <;> simp [hq]

theorem getSS_append_lt (sts : List (List Item)) (x : List Item) (n : Nat)
    (h : n < sts.length) : getSS (sts ++ [x]) n = getSS sts n := by
  induction sts generalizing n with
  | nil => simp at h
  | cons a sts ih =>
      cases n with
      | zero => rfl
      | succ n =>
          simp only [List.length_cons] at h
          exact ih n (by omega)

theorem getSS_append_len (sts : List (List Item)) (x : List Item) :
    getSS (sts ++ [x]) sts.length = x := by
  induction sts with
  | nil => rfl
  | cons a sts ih => exact ih

theorem getSS_oob (sts : List (List Item)) (n : Nat) (h : sts.length ≤ n) :
    getSS sts n = [] := by
  induction sts generalizing n with
  | nil => cases n <;> rfl
  | cons a sts ih =>
      cases n with
      | zero => simp at h
      | succ n =>
          simp only [List.length_cons] at h
          exact ih n (by omega)

theorem chartInv_extends (g : Grammar) (s : List Char) (i j : Nat)
    (sts sts' : List (List Item))
    (hInv : ChartInv g s i j sts) (hj : j < (getSS sts i).length)
    (hns : scannable g s i ((getSS sts i).get ⟨j, hj⟩) = false)
    (hext : ExtendsAt i sts sts') : ChartInv g s i (j + 1) sts' := by
  obtain ⟨hnod, hlt, hle, h3, h4⟩ := hInv
  obtain ⟨hlen, hother, ⟨t, ht⟩, hnodi⟩ := hext
  have htake : ((getSS sts' i).take (j + 1)).filter (scannable g s i) =
      ((getSS sts i).take j).filter (scannable g s i) := by
    rw [ht, List.take_append_eq_append_take]
    have hj1 : j + 1 ≤ (getSS sts i).length := hj
    rw [Nat.sub_eq_zero_of_le hj1, List.take_zero, List.append_nil]
    rw [take_filter_succ _ _ j hj]
    have hns' : scannable g s i (getSS sts i)[j] = false := hns
    simp [hns']
  refine ⟨?_, by omega, by omega, ?_, ?_⟩
  · intro n
    by_cases hn : n = i
    · subst hn; exact hnodi (hnod n)
    · rw [hother n hn]; exact hnod n
  · intro hlen1
    rw [htake]
    exact h3 (by omega)
  · intro hlen2
    rw [htake, hother (i + 1) (by omega)]
    exact h4 (by omega)

theorem filter_take_nodup (l : List Item) (q : Item → Bool) (j : Nat)
    (h : l.Nodup) : ((l.take j).filter q).Nodup :=
  ((List.filter_sublist _).trans (List.take_sublist j l)).nodup h

theorem chartInv_scan (g : Grammar) (s : List Char) (i j : Nat)
    (sts : List (List Item)) (p : Char → Bool)
    (hInv : ChartInv g s i j sts) (hj : j < (getSS sts i).length)
    (hterm : lookupStr g.terminals
      ((getSS sts i)[j].rule.seq.getD (getSS sts i)[j].dot "") = some p)
    (hsc : scannable g s i (getSS sts i)[j] = true) :
    ChartInv g s i (j + 1)
      (scanStep i (getSS sts i)[j] p (s.getD i ' ') sts) := by
  obtain ⟨hnod, hlt, hle, h3, h4⟩ := hInv
  have hcomp : p (s.getD i ' ') = true := by
    unfold scannable at hsc
    rw [hterm] at hsc
    simp only [Bool.and_eq_true, decide_eq_true_eq] at hsc
    exact hsc.2.2
  unfold scanStep
  rw [if_pos hcomp]
  have htake : ((getSS sts i).take (j + 1)).filter (scannable g s i) =
      ((getSS sts i).take j).filter (scannable g s i) ++ [(getSS sts i)[j]] := by
    rw [take_filter_succ _ _ j hj, if_pos hsc]
  rcases Nat.lt_or_ge sts.length (i + 2) with hA | hB
  · -- sts.length = i + 1
    have hA' : sts.length = i + 1 := by omega
    have hcond : i = sts.length - 1 := by omega
    rw [if_pos hcond]
    have hlen1 : (sts ++ [[]]).length = i + 2 := by simp [hA']
    have hgi1 : getSS (sts ++ [([] : List Item)]) (i + 1) = [] := by
      have := getSS_append_len sts ([] : List Item)
      rwa [hA'] at this
    have hgi : getSS (sts ++ [([] : List Item)]) i = getSS sts i :=
      getSS_append_lt sts [] i (by omega)
    have hempty : ((getSS sts i).take j).filter (scannable g s i) = [] := h3 hA'
    refine ⟨?_, ?_, ?_, ?_, ?_⟩
    · intro n
      by_cases hn : n = i + 1
      · subst hn
        rw [getSS_setSS_self _ _ _ (by rw [hlen1]; omega), hgi1]
        simp
      · rw [getSS_setSS_ne _ _ _ _ hn]
        rcases Nat.lt_or_ge n sts.length with h1 | h1
        · rw [getSS_append_lt sts [] n h1]; exact hnod n
        · rw [getSS_oob (sts ++ [[]]) n (by simp; omega)]
          simp
    · rw [length_setSS, hlen1]; omega
    · rw [length_setSS, hlen1]
    · intro hcontra
      rw [length_setSS, hlen1] at hcontra
      omega
    · intro _
      rw [getSS_setSS_self _ _ _ (by rw [hlen1]; omega), hgi1,
          getSS_setSS_ne _ _ _ _ (by omega : i ≠ i + 1), hgi, htake, hempty]
      simp
  · -- sts.length = i + 2
    have hB' : sts.length = i + 2 := by omega
    have hcond : ¬ i = sts.length - 1 := by omega
    rw [if_neg hcond]
    have hold : getSS sts (i + 1) =
        (((getSS sts i).take j).filter (scannable g s i)).map Item.advance := h4 hB'
    refine ⟨?_, ?_, ?_, ?_, ?_⟩
    · intro n
      by_cases hn : n = i + 1
      · subst hn
        rw [getSS_setSS_self _ _ _ (by omega), hold]
        have heq : List.map Item.advance (((getSS sts i).take j).filter (scannable g s i)) ++
            [(getSS sts i)[j].advance] =
            List.map Item.advance (((getSS sts i).take (j + 1)).filter (scannable g s i)) := by
          rw [htake, List.map_append]
          rfl
        rw [heq]
        exact (filter_take_nodup _ _ _ (hnod i)).map advance_injective
      · rw [getSS_setSS_ne _ _ _ _ hn]; exact hnod n
    · rw [length_setSS]; omega
    · rw [length_setSS]; omega
    · intro hcontra
      rw [length_setSS] at hcontra
      omega
    · intro _
      rw [getSS_setSS_self _ _ _ (by omega), hold,
          getSS_setSS_ne _ _ _ _ (by omega : i ≠ i + 1), htake]
      simp

theorem processItem_inv (g : Grammar) (s : List Char) (F i j : Nat)
    (sts sts' : List (List Item))
    (hInv : ChartInv g s i j sts) (hj : j < (getSS sts i).length)
    (hp : processItem g s F i ((getSS sts i).get ⟨j, hj⟩) sts = some sts') :
    ChartInv g s i (j + 1) sts' := by
  have hg : (getSS sts i).get ⟨j, hj⟩ = (getSS sts i)[j] := rfl
  rw [hg] at hp
  unfold processItem at hp
  by_cases hdot : (getSS sts i)[j].dot = (getSS sts i)[j].rule.seq.length
  · rw [if_pos hdot] at hp
    refine chartInv_extends g s i j sts sts' hInv hj ?_
      (completeStep_extends F i _ sts sts' hp)
    show scannable g s i (getSS sts i)[j] = false
    unfold scannable
    have : ¬ (getSS sts i)[j].dot < (getSS sts i)[j].rule.seq.length := by omega
    simp [this]
  · rw [if_neg hdot] at hp
    by_cases hlt : (getSS sts i)[j].dot < (getSS sts i)[j].rule.seq.length
    · rw [if_pos hlt] at hp
      dsimp only at hp
      cases hterm : lookupStr g.terminals
          ((getSS sts i)[j].rule.seq.getD (getSS sts i)[j].dot "") with
      | some p =>
          rw [hterm] at hp
          dsimp only at hp
          by_cases hin : i < s.length
          · rw [if_pos hin] at hp
            simp only [Option.some_inj] at hp
            subst hp
            by_cases hcomp : p (s.getD i ' ') = true
            · refine chartInv_scan g s i j sts p hInv hj hterm ?_
              unfold scannable
              rw [hterm]
              simp only [Bool.and_eq_true, decide_eq_true_eq]
              exact ⟨hlt, hin, hcomp⟩
            · -- predicate rejects: scanStep leaves the chart unchanged
              have hfix : scanStep i (getSS sts i)[j] p (s.getD i ' ') sts = sts := by
                unfold scanStep
                rw [if_neg hcomp]
              rw [hfix]
              refine chartInv_extends g s i j sts sts hInv hj ?_ (extendsAt_refl i sts)
              show scannable g s i (getSS sts i)[j] = false
              unfold scannable
              rw [hterm]
              have hcf : p (s.getD i ' ') = false := by
                rw [Bool.eq_false_iff]
                exact fun hc => hcomp hc
              dsimp only
              rw [hcf]
              simp
          · rw [if_neg hin] at hp
            have hsf : scannable g s i (getSS sts i)[j] = false := by
              unfold scannable
              rw [hterm]
              simp [hin]
            by_cases hnt : (lookupStr g.nonterminals
                ((getSS sts i)[j].rule.seq.getD (getSS sts i)[j].dot "")).isSome
            · rw [if_pos hnt] at hp
              exact chartInv_extends g s i j sts sts' hInv hj hsf
                (predictStep_extends g i _ _ sts sts' hp)
            · rw [if_neg hnt] at hp
              simp only [Option.some_inj] at hp
              subst hp
              exact chartInv_extends g s i j sts sts hInv hj hsf (extendsAt_refl i sts)
      | none =>
          rw [hterm] at hp
          dsimp only at hp
          have hsf : scannable g s i (getSS sts i)[j] = false := by
            unfold scannable
            rw [hterm]
            simp
          by_cases hnt : (lookupStr g.nonterminals
              ((getSS sts i)[j].rule.seq.getD (getSS sts i)[j].dot "")).isSome
          · rw [if_pos hnt] at hp
            exact chartInv_extends g s i j sts sts' hInv hj hsf
              (predictStep_extends g i _ _ sts sts' hp)
          · rw [if_neg hnt] at hp
            simp only [Option.some_inj] at hp
            subst hp
            exact chartInv_extends g s i j sts sts hInv hj hsf (extendsAt_refl i sts)
    · rw [if_neg hlt] at hp
      cases hp

theorem innerLoop_inv (g : Grammar) (s : List Char) (F i : Nat) :
    ∀ (fuel j : Nat) (sts out : List (List Item)),
      ChartInv g s i j sts → innerLoop g s F i fuel j sts = some out →
      (∀ n, (getSS out n).Nodup) ∧ out.length ≤ i + 2 := by
  intro fuel
  induction fuel with
  | zero => intro j sts out _ h; exact absurd h (by simp [innerLoop])
  | succ fuel ih =>
      intro j sts out hInv h
      rw [innerLoop] at h
      by_cases hj : j < (getSS sts i).length
      · rw [dif_pos hj] at h
        cases hp : processItem g s F i ((getSS sts i).get ⟨j, hj⟩) sts with
        | none => rw [hp] at h; cases h
        | some sts' =>
            rw [hp] at h
            exact ih (j + 1) sts' out (processItem_inv g s F i j sts sts' hInv hj hp) h
      · rw [dif_neg hj] at h
        cases h
        exact ⟨hInv.1, hInv.2.2.1⟩

theorem outerLoop_inv (g : Grammar) (s : List Char) (F : Nat) :
    ∀ (fuel i : Nat) (sts out : List (List Item)),
      (∀ n, (getSS sts n).Nodup) → sts.length ≤ i + 1 →
      outerLoop g s F fuel i sts = some out → ∀ n, (getSS out n).Nodup := by
  intro fuel
  induction fuel with
  | zero => intro i sts out _ _ h; exact absurd h (by simp [outerLoop])
  | succ fuel ih =>
      intro i sts out hnod hle h
      rw [outerLoop] at h
      by_cases hi : i < sts.length
      · rw [if_pos hi] at h
        cases hin : innerLoop g s F i F 0 sts with
        | none => rw [hin] at h; cases h
        | some sts' =>
            rw [hin] at h
            have hInv : ChartInv g s i 0 sts := by
              refine ⟨hnod, hi, by omega, ?_, ?_⟩
              · intro _; simp
              · intro hcontra; omega
            obtain ⟨hnod', hle'⟩ := innerLoop_inv g s F i F 0 sts sts' hInv hin
            exact ih (i + 1) sts' out hnod' (by omega) h
      · rw [if_neg hi] at h
        cases h
        exact hnod

theorem initSeeds_eq (g : Grammar) (ss0 : List Item)
    (h : initSeeds g = some ss0) :
    ss0 = (startRules g).map (fun r => ⟨r, 0, 0⟩) := by
  unfold initSeeds at h
  cases hn : g.nonterminals with
  | nil => rw [hn] at h; cases h
  | cons kp rest =>
      rw [hn] at h
      obtain ⟨k, rs⟩ := kp
      dsimp only at h
      cases ht : lookupStr g.terminals k with
      | some p => rw [ht] at h; cases h
      | none =>
          rw [ht] at h
          dsimp only at h
          have hl : lookupStr ((k, rs) :: rest) k = some rs := by
            simp [lookupStr]
          rw [hl] at h
          simp only [Option.some_inj] at h
          subst h
          unfold startRules
          rw [hn]

theorem seedItem_injective : Function.Injective (fun r : Rule => (⟨r, 0, 0⟩ : Item)) := by
  intro a b h
  simpa using h


/-- Claim C8 (amended): when the start symbol's rule list holds no
duplicate rules, every state-set of any chart `earley` returns is
duplicate-free under structural (rule, dot, origin) equality — the
membership-checked appends keep the current state-set duplicate-free and
the unchecked scan appends are the advance image (injective) of the
scannable items of the previous duplicate-free state-set. -/
theorem claimC8 (F : Nat) (g : Grammar) (s : List Char) (sts : List (List Item))
    (hstart : (startRules g).Nodup) (h : earley F g s = some sts) :
    ∀ ss ∈ sts, ss.Nodup := by
  unfold earley at h
  cases hseed : initSeeds g with
  | none => rw [hseed] at h; cases h
  | some ss0 =>
      rw [hseed] at h
      have hss0 : ss0.Nodup := by
        rw [initSeeds_eq g ss0 hseed]
        exact hstart.map seedItem_injective
      have hnod : ∀ n, (getSS [ss0] n).Nodup := by
        intro n
        cases n with
        | zero => exact hss0
        | succ n =>
            rw [getSS_oob _ _ (by simp)]
            simp
      have := outerLoop_inv g s F F 0 [ss0] sts hnod (by simp) h
      intro ss hss
      obtain ⟨n, hget⟩ := List.mem_iff_get.mp hss
      have hgd : getSS sts n.val = ss := by
        unfold getSS
        rw [List.getD_eq_getElem?_getD, List.getElem?_eq_getElem n.isLt]
        simpa using hget
      rw [← hgd]
      exact this n.val


/-- Claim C8 (witness): the amended statement evaluated on `gSA`,
input `"a"`, at state-set 1. -/
theorem claimC8_witness :
    (getSS ((earley 30 gSA ['a']).getD []) 1).Nodup :=
  claimC8 30 gSA ['a'] ((earley 30 gSA ['a']).getD []) (by decide) (by decide)
    (getSS ((earley 30 gSA ['a']).getD []) 1) (by decide)

/-! ## Fuel monotonicity

The fuel only decides whether a run finishes; it never changes the
answer.  Every loop's success is preserved by raising the fuel. -/


theorem getTopmost_mono : ∀ (f : Nat) (sts : List (List Item)) (item y : Item),
    getTopmost f sts item = some y → getTopmost (f + 1) sts item = some y := by
  intro f
  induction f with
  | zero => intro sts item y h; exact absurd h (by simp [getTopmost])
  | succ f ih =>
      intro sts item y h
      rw [getTopmost] at h ⊢
      cases hs : scanWait (getSS sts item.start) item.rule.symbol none false with
      | ambig => rw [hs] at h; exact h
      | found m b =>
          rw [hs] at h
          match m, b with
          | some m, true => exact ih sts (Item.advance m) y h
          | some m, false => exact h
          | none, true => exact h
          | none, false => exact h

theorem getTopmost_mono_le (f f' : Nat) (hle : f ≤ f') (sts : List (List Item))
    (item y : Item) (h : getTopmost f sts item = some y) :
    getTopmost f' sts item = some y := by
  induction f' with
  | zero =>
      have : f = 0 := by omega
      subst this; exact h
  | succ f' ih =>
      rcases Nat.lt_or_ge f (f' + 1) with hlt | hge
      · exact getTopmost_mono f' sts item y (ih (by omega))
      · have : f = f' + 1 := by omega
        subst this; exact h

theorem completeLoop_mono (sym : String) (src i : Nat) :
    ∀ (f k : Nat) (sts y : List (List Item)),
      completeLoop sym src i f k sts = some y →
      completeLoop sym src i (f + 1) k sts = some y := by
  intro f
  induction f with
  | zero => intro k sts y h; exact absurd h (by simp [completeLoop])
  | succ f ih =>
      intro k sts y h
      rw [completeLoop] at h ⊢
      by_cases hk : k < (getSS sts src).length
      · rw [dif_pos hk] at h ⊢
        exact ih (k + 1) _ y h
      · rw [dif_neg hk] at h ⊢
        exact h

theorem completeStep_mono (F i : Nat) (item : Item) (sts y : List (List Item))
    (h : completeStep F i item sts = some y) :
    completeStep (F + 1) i item sts = some y := by
  unfold completeStep at h ⊢
  cases ht : getTopmost F sts item with
  | none => rw [ht] at h; cases h
  | some topmost =>
      rw [ht] at h
      rw [getTopmost_mono F sts item topmost ht]
      dsimp only at h ⊢
      by_cases hne : topmost ≠ item
      · rw [if_pos hne] at h ⊢; exact h
      · rw [if_neg hne] at h ⊢
        exact completeLoop_mono _ _ i F 0 sts y h

theorem processItem_mono (g : Grammar) (s : List Char) (F i : Nat) (item : Item)
    (sts y : List (List Item)) (h : processItem g s F i item sts = some y) :
    processItem g s (F + 1) i item sts = some y := by
  unfold processItem at h ⊢
  by_cases hdot : item.dot = item.rule.seq.length
  · rw [if_pos hdot] at h ⊢
    exact completeStep_mono F i item sts y h
  · rw [if_neg hdot] at h ⊢
    exact h

theorem innerLoop_mono (g : Grammar) (s : List Char) (i : Nat) :
    ∀ (c F j : Nat) (sts y : List (List Item)),
      innerLoop g s F i c j sts = some y →
      innerLoop g s (F + 1) i (c + 1) j sts = some y := by
  intro c
  induction c with
  | zero => intro F j sts y h; exact absurd h (by simp [innerLoop])
  | succ c ih =>
      intro F j sts y h
      rw [innerLoop] at h ⊢
      by_cases hj : j < (getSS sts i).length
      · rw [dif_pos hj] at h ⊢
        cases hp : processItem g s F i ((getSS sts i).get ⟨j, hj⟩) sts with
        | none => rw [hp] at h; cases h
        | some sts' =>
            rw [hp] at h
            rw [processItem_mono g s F i _ sts sts' hp]
            exact ih F (j + 1) sts' y h
      · rw [dif_neg hj] at h ⊢
        exact h

theorem outerLoop_mono (g : Grammar) (s : List Char) :
    ∀ (c F i : Nat) (sts y : List (List Item)),
      outerLoop g s F c i sts = some y →
      outerLoop g s (F + 1) (c + 1) i sts = some y := by
  intro c
  induction c with
  | zero => intro F i sts y h; exact absurd h (by simp [outerLoop])
  | succ c ih =>
      intro F i sts y h
      rw [outerLoop] at h ⊢
      by_cases hi : i < sts.length
      · rw [if_pos hi] at h ⊢
        cases hin : innerLoop g s F i F 0 sts with
        | none => rw [hin] at h; cases h
        | some sts' =>
            rw [hin] at h
            rw [innerLoop_mono g s i F F 0 sts sts' hin]
            exact ih F (i + 1) sts' y h
      · rw [if_neg hi] at h ⊢
        exact h

theorem earley_mono (F : Nat) (g : Grammar) (s : List Char) (y : List (List Item))
    (h : earley F g s = some y) : earley (F + 1) g s = some y := by
  unfold earley at h ⊢
  cases hs : initSeeds g with
  | none => rw [hs] at h; cases h
  | some ss0 =>
      rw [hs] at h
      dsimp only at h ⊢
      exact outerLoop_mono g s F F 0 [ss0] y h

theorem earley_mono_le (F F' : Nat) (hle : F ≤ F') (g : Grammar) (s : List Char)
    (y : List (List Item)) (h : earley F g s = some y) : earley F' g s = some y := by
  induction F' with
  | zero =>
      have : F = 0 := by omega
      subst this; exact h
  | succ F' ih =>
      rcases Nat.lt_or_ge F (F' + 1) with hlt | hge
      · exact earley_mono F' g s y (ih (by omega))
      · have : F = F' + 1 := by omega
        subst this; exact h

/-! ## Claim C9: right-recursion boundedness

The run of `earley` on `gA` and `"a" * k` is computed in closed form:
state-set 0 and 1 settle to `S0A` and `S1A`, and every later state-set
to the 5-item shape `SSA`.  The proof executes the sweep symbolically,
with `walkA` handling the reduction-chain walk down the chart. -/


theorem scanWait_S0A : scanWait S0A "A" none false = ScanRes.found none false := by
  decide

theorem scanWait_S1A :
    scanWait S1A "A" none false = ScanRes.found (some ⟨ruleC, 1, 0⟩) true := by
  decide

theorem scanWait_SSA (m : Nat) :
    scanWait (SSA m) "A" none false = ScanRes.found (some ⟨ruleC, 1, m⟩) true := by
  simp [SSA, scanWait, waitsFor, ruleC, ruleN]

theorem scanWait_partA (i : Nat) :
    scanWait (partA i) "A" none false = ScanRes.found (some ⟨ruleC, 1, i - 1⟩) true := by
  simp [partA, scanWait, waitsFor, ruleC, ruleN]

-- index lemmas
theorem getD_map_range (f : Nat → List Item) (n m : Nat) (h : m < n) :
    ((List.range n).map f).getD m [] = f m := by
  rw [List.getD_eq_getElem?_getD, List.getElem?_eq_getElem (by simpa using h)]
  simp

theorem length_chartMidA (i : Nat) (h : 2 ≤ i) (last : List Item) :
    (chartMidA i last).length = i + 1 := by
  simp [chartMidA]
  omega

theorem length_chartMidA2 (i : Nat) (h : 2 ≤ i) (last nxt : List Item) :
    (chartMidA2 i last nxt).length = i + 2 := by
  simp [chartMidA2]
  omega

theorem getSS_chartMidA_0 (i : Nat) (last : List Item) :
    getSS (chartMidA i last) 0 = S0A := rfl

theorem getSS_chartMidA_1 (i : Nat) (last : List Item) :
    getSS (chartMidA i last) 1 = S1A := rfl

theorem getSS_chartMidA_mid (i m : Nat) (last : List Item)
    (h2 : 2 ≤ m) (hlt : m < i) :
    getSS (chartMidA i last) m = SSA (m - 1) := by
  obtain ⟨m', rfl⟩ : ∃ m', m = m' + 2 := ⟨m - 2, by omega⟩
  show getSS ((List.range (i - 2)).map (fun t => SSA (t + 1)) ++ [last]) m' = SSA (m' + 1)
  unfold getSS
  rw [List.getD_eq_getElem?_getD, List.getElem?_append_left (by simp; omega)]
  rw [List.getElem?_eq_getElem (by simp; omega)]
  simp

theorem getSS_chartMidA_last (i : Nat) (last : List Item) (h : 2 ≤ i) :
    getSS (chartMidA i last) i = last := by
  obtain ⟨m', rfl⟩ : ∃ m', i = m' + 2 := ⟨i - 2, by omega⟩
  show getSS ((List.range m').map (fun t => SSA (t + 1)) ++ [last]) m' = last
  unfold getSS
  rw [List.getD_eq_getElem?_getD]
  rw [List.getElem?_append_right (by simp)]
  simp

theorem getSS_chartMidA2_0 (i : Nat) (last nxt : List Item) :
    getSS (chartMidA2 i last nxt) 0 = S0A := rfl

theorem getSS_chartMidA2_1 (i : Nat) (last nxt : List Item) :
    getSS (chartMidA2 i last nxt) 1 = S1A := rfl

theorem getSS_chartMidA2_mid (i m : Nat) (last nxt : List Item)
    (h2 : 2 ≤ m) (hlt : m < i) :
    getSS (chartMidA2 i last nxt) m = SSA (m - 1) := by
  obtain ⟨m', rfl⟩ : ∃ m', m = m' + 2 := ⟨m - 2, by omega⟩
  show getSS ((List.range (i - 2)).map (fun t => SSA (t + 1)) ++ [last, nxt]) m' = SSA (m' + 1)
  unfold getSS
  rw [List.getD_eq_getElem?_getD, List.getElem?_append_left (by simp; omega)]
  rw [List.getElem?_eq_getElem (by simp; omega)]
  simp

theorem getSS_chartMidA2_last (i : Nat) (last nxt : List Item) (h : 2 ≤ i) :
    getSS (chartMidA2 i last nxt) i = last := by
  obtain ⟨m', rfl⟩ : ∃ m', i = m' + 2 := ⟨i - 2, by omega⟩
  show getSS ((List.range m').map (fun t => SSA (t + 1)) ++ [last, nxt]) m' = last
  unfold getSS
  rw [List.getD_eq_getElem?_getD]
  rw [List.getElem?_append_right (by simp)]
  simp

theorem setSS_chartMidA_last (i : Nat) (last last' : List Item) (h : 2 ≤ i) :
    setSS (chartMidA i last) i last' = chartMidA i last' := by
  obtain ⟨m', rfl⟩ : ∃ m', i = m' + 2 := ⟨i - 2, by omega⟩
  show S0A :: S1A :: (((List.range m').map (fun t => SSA (t + 1)) ++ [last]).set m' last') =
    chartMidA (m' + 2) last'
  rw [List.set_append_right _ _ (by simp)]
  simp [chartMidA]

theorem setSS_chartMidA2_last (i : Nat) (last nxt last' : List Item) (h : 2 ≤ i) :
    setSS (chartMidA2 i last nxt) i last' = chartMidA2 i last' nxt := by
  obtain ⟨m', rfl⟩ : ∃ m', i = m' + 2 := ⟨i - 2, by omega⟩
  show S0A :: S1A :: (((List.range m').map (fun t => SSA (t + 1)) ++ [last, nxt]).set m' last') =
    chartMidA2 (m' + 2) last' nxt
  rw [List.set_append_right _ _ (by simp)]
  simp [chartMidA2]

theorem scan_chartMidA (i : Nat) (last v : List Item) (h : 2 ≤ i) :
    setSS ((chartMidA i last) ++ [[]]) (i + 1) v = chartMidA2 i last v := by
  obtain ⟨m', rfl⟩ : ∃ m', i = m' + 2 := ⟨i - 2, by omega⟩
  unfold chartMidA chartMidA2 setSS
  simp only [List.cons_append, Nat.add_sub_cancel, List.set, List.append_eq]
  rw [List.append_assoc, List.set_append_right _ _ (by simp)]
  simp

theorem walkShape_chartMidA (i : Nat) (h2 : 2 ≤ i) (last : List Item)
    (hlast : scanWait last "A" none false = ScanRes.found (some ⟨ruleC, 1, i - 1⟩) true) :
    walkShape (chartMidA i last) i := by
  constructor
  · rw [getSS_chartMidA_0]; exact scanWait_S0A
  · intro m h1 hm
    rcases Nat.lt_or_ge m 2 with hm2 | hm2
    · have : m = 1 := by omega
      subst this
      rw [getSS_chartMidA_1]
      simpa using scanWait_S1A
    · rcases Nat.lt_or_ge m i with hmi | hmi
      · rw [getSS_chartMidA_mid i m last hm2 hmi, scanWait_SSA]
      · have heq : m = i := by omega
        rw [heq, getSS_chartMidA_last i last h2]
        exact hlast

theorem walkShape_chartMidA2 (i : Nat) (h2 : 2 ≤ i) (last nxt : List Item)
    (hlast : scanWait last "A" none false = ScanRes.found (some ⟨ruleC, 1, i - 1⟩) true) :
    walkShape (chartMidA2 i last nxt) i := by
  constructor
  · rw [getSS_chartMidA2_0]; exact scanWait_S0A
  · intro m h1 hm
    rcases Nat.lt_or_ge m 2 with hm2 | hm2
    · have : m = 1 := by omega
      subst this
      rw [getSS_chartMidA2_1]
      simpa using scanWait_S1A
    · rcases Nat.lt_or_ge m i with hmi | hmi
      · rw [getSS_chartMidA2_mid i m last nxt hm2 hmi, scanWait_SSA]
      · have heq : m = i := by omega
        rw [heq, getSS_chartMidA2_last i last nxt h2]
        exact hlast

theorem walkA (C : List (List Item)) (M : Nat) (hC : walkShape C M) :
    ∀ (m f : Nat), m ≤ M → getTopmost (f + m + 1) C ⟨ruleC, 2, m⟩ = some ⟨ruleC, 2, 0⟩ := by
  intro m
  induction m with
  | zero =>
      intro f _
      rw [getTopmost]
      have h0 : scanWait (getSS C 0) "A" none false = ScanRes.found none false := hC.1
      rw [show ((⟨ruleC, 2, 0⟩ : Item).start) = 0 from rfl,
          show ((⟨ruleC, 2, 0⟩ : Item).rule.symbol) = "A" from rfl, h0]
  | succ m ih =>
      intro f hm
      have hs := hC.2 (m + 1) (by omega) hm
      rw [getTopmost]
      rw [show ((⟨ruleC, 2, m + 1⟩ : Item).start) = m + 1 from rfl,
          show ((⟨ruleC, 2, m + 1⟩ : Item).rule.symbol) = "A" from rfl, hs]
      show getTopmost (f + m + 1) C ⟨ruleC, 2, m⟩ = some ⟨ruleC, 2, 0⟩
      exact ih f (by omega)

theorem walkA_from (C : List (List Item)) (M : Nat) (hC : walkShape C M) :
    ∀ (i f : Nat), 1 ≤ i → i ≤ M →
      getTopmost (f + i + 1) C ⟨ruleN, 0, i⟩ = some ⟨ruleC, 2, 0⟩ := by
  intro i f h1 hi
  have hs := hC.2 i h1 hi
  obtain ⟨i', rfl⟩ : ∃ i', i = i' + 1 := ⟨i - 1, by omega⟩
  rw [getTopmost]
  rw [show ((⟨ruleN, 0, i' + 1⟩ : Item).start) = i' + 1 from rfl,
      show ((⟨ruleN, 0, i' + 1⟩ : Item).rule.symbol) = "A" from rfl, hs]
  show getTopmost (f + i' + 1) C (Item.advance ⟨ruleC, 1, i' + 1 - 1⟩) = some ⟨ruleC, 2, 0⟩
  have : Item.advance ⟨ruleC, 1, i' + 1 - 1⟩ = ⟨ruleC, 2, i'⟩ := by
    simp [Item.advance]
  rw [this]
  exact walkA C M hC i' f (by omega)

theorem getD_aTok (k i : Nat) (h : i < k) : (aTok k).getD i ' ' = 'a' := by
  unfold aTok
  rw [List.getD_eq_getElem?_getD, List.getElem?_eq_getElem (by simpa using h)]
  simp

theorem processItem_predictA (s : List Char) (F i : Nat) (C : List (List Item))
    (hgi : getSS C i = [⟨ruleC, 1, i - 1⟩]) :
    processItem gA s F i ⟨ruleC, 1, i - 1⟩ C = some (setSS C i (partA i)) := by
  show predictStep gA i ⟨ruleC, 1, i - 1⟩ "A" C = some (setSS C i (partA i))
  unfold predictStep
  rw [show predictRules gA "A" = some [ruleC, ruleN] from rfl]
  dsimp only
  rw [hgi]
  have e1 : addIfAbsent [⟨ruleC, 1, i - 1⟩] ⟨ruleC, 0, i⟩ =
      [⟨ruleC, 1, i - 1⟩, ⟨ruleC, 0, i⟩] := by
    simp [addIfAbsent]
  have e2 : addIfAbsent [⟨ruleC, 1, i - 1⟩, ⟨ruleC, 0, i⟩] ⟨ruleN, 0, i⟩ =
      [⟨ruleC, 1, i - 1⟩, ⟨ruleC, 0, i⟩, ⟨ruleN, 0, i⟩] := by
    simp [addIfAbsent, ruleC, ruleN]
  have hnul : ("A" ∈ gA.nullable) := by decide
  have e3 : addIfAbsent [⟨ruleC, 1, i - 1⟩, ⟨ruleC, 0, i⟩, ⟨ruleN, 0, i⟩]
      (Item.advance ⟨ruleC, 1, i - 1⟩) = partA i := by
    simp [addIfAbsent, Item.advance, partA, ruleC, ruleN]
  rw [List.foldl_cons, e1, List.foldl_cons, e2, List.foldl_nil, if_pos hnul, e3]

theorem processItem_scanA (k F i : Nat) (C : List (List Item))
    (hik : i < k) (hlen : C.length = i + 1) :
    processItem gA (aTok k) F i ⟨ruleC, 0, i⟩ C =
      some (setSS (C ++ [[]]) (i + 1) [⟨ruleC, 1, i⟩]) := by
  have hlt : i < (aTok k).length := by simpa [aTok] using hik
  have hstep : processItem gA (aTok k) F i ⟨ruleC, 0, i⟩ C =
      some (scanStep i ⟨ruleC, 0, i⟩ (chPred 'a') ((aTok k).getD i ' ') C) := by
    show (if i < (aTok k).length then
        some (scanStep i ⟨ruleC, 0, i⟩ (chPred 'a') ((aTok k).getD i ' ') C)
      else if (lookupStr gA.nonterminals "a").isSome then
        predictStep gA i ⟨ruleC, 0, i⟩ "a" C
      else some C) = _
    rw [if_pos hlt]
  rw [hstep]
  unfold scanStep
  rw [getD_aTok k i hik]
  rw [if_pos (show chPred 'a' 'a' = true from rfl)]
  rw [if_pos (show i = C.length - 1 by omega)]
  have hg1 : getSS (C ++ [[]]) (i + 1) = [] := by
    have := getSS_append_len C ([] : List Item)
    rwa [hlen] at this
  dsimp only
  rw [hg1]
  simp [Item.advance]

theorem processItem_noscanA (k F : Nat) (C : List (List Item)) :
    processItem gA (aTok k) F k ⟨ruleC, 0, k⟩ C = some C := by
  have hnlt : ¬ k < (aTok k).length := by simp [aTok]
  show (if k < (aTok k).length then
      some (scanStep k ⟨ruleC, 0, k⟩ (chPred 'a') ((aTok k).getD k ' ') C)
    else if (lookupStr gA.nonterminals "a").isSome then
      predictStep gA k ⟨ruleC, 0, k⟩ "a" C
    else some C) = some C
  rw [if_neg hnlt, if_neg (by decide)]

theorem completeLoop_S0A (i c : Nat) (C : List (List Item)) (h0 : getSS C 0 = S0A) :
    completeLoop "A" 0 i (c + 3) 0 C = some C := by
  have hl : (getSS C 0).length = 2 := by rw [h0]; rfl
  have hw : ∀ (n : Nat) (hn : n < (getSS C 0).length),
      waitsFor "A" ((getSS C 0).get ⟨n, hn⟩) = false := by
    intro n hn
    have hn2 : n < S0A.length := by rw [h0] at hn; exact hn
    have hx : (getSS C 0).get ⟨n, hn⟩ = S0A.get ⟨n, hn2⟩ := by
      have := List.get_of_eq h0 ⟨n, hn⟩
      simpa using this
    rw [hx]
    have hall : ∀ x ∈ S0A, waitsFor "A" x = false := by decide
    exact hall _ (List.get_mem S0A n hn2)
  rw [completeLoop]
  rw [dif_pos (by omega)]
  dsimp only
  rw [if_neg (by simp only [hw]; simp)]
  rw [completeLoop]
  rw [dif_pos (by omega)]
  dsimp only
  rw [if_neg (by simp only [hw]; simp)]
  rw [completeLoop]
  rw [dif_neg (by omega)]

theorem processItem_rNA (s : List Char) (F i M : Nat) (C : List (List Item))
    (hC : walkShape C M) (h1 : 1 ≤ i) (hiM : i ≤ M) (hF : i + 2 ≤ F) :
    processItem gA s F i ⟨ruleN, 0, i⟩ C =
      some (setSS C i (addIfAbsent (getSS C i) ⟨ruleC, 2, 0⟩)) := by
  have htop : getTopmost F C ⟨ruleN, 0, i⟩ = some ⟨ruleC, 2, 0⟩ := by
    obtain ⟨f, rfl⟩ : ∃ f, F = f + i + 1 := ⟨F - (i + 1), by omega⟩
    exact walkA_from C M hC i f h1 hiM
  show completeStep F i ⟨ruleN, 0, i⟩ C = _
  unfold completeStep
  rw [htop]
  dsimp only
  rw [if_pos (show (⟨ruleC, 2, 0⟩ : Item) ≠ ⟨ruleN, 0, i⟩ by simp [ruleC, ruleN])]

theorem processItem_topA (s : List Char) (F i m M : Nat) (C : List (List Item))
    (hC : walkShape C M) (h1 : 1 ≤ m) (hmM : m ≤ M) (hF : m + 2 ≤ F) :
    processItem gA s F i ⟨ruleC, 2, m⟩ C =
      some (setSS C i (addIfAbsent (getSS C i) ⟨ruleC, 2, 0⟩)) := by
  have htop : getTopmost F C ⟨ruleC, 2, m⟩ = some ⟨ruleC, 2, 0⟩ := by
    obtain ⟨f, rfl⟩ : ∃ f, F = f + m + 1 := ⟨F - (m + 1), by omega⟩
    exact walkA C M hC m f hmM
  show completeStep F i ⟨ruleC, 2, m⟩ C = _
  unfold completeStep
  rw [htop]
  dsimp only
  rw [if_pos (show (⟨ruleC, 2, 0⟩ : Item) ≠ ⟨ruleC, 2, m⟩ by
    simp only [ne_eq, Item.mk.injEq]
    intro hcon
    omega)]

theorem processItem_zeroA (s : List Char) (F i c : Nat) (item : Item)
    (C : List (List Item))
    (hdot : item.dot = item.rule.seq.length) (hsym : item.rule.symbol = "A")
    (hst : item.start = 0) (h0 : getSS C 0 = S0A) (hF : F = c + 3) :
    processItem gA s F i item C = some C := by
  subst hF
  have htop : getTopmost (c + 3) C item = some item := by
    rw [getTopmost]
    rw [hst, h0, hsym, scanWait_S0A]
  unfold processItem
  rw [if_pos hdot]
  unfold completeStep
  rw [htop]
  dsimp only
  rw [if_neg (by simp : ¬ item ≠ item)]
  rw [hsym, hst]
  exact completeLoop_S0A i c C h0

theorem innerLoop_cons (g : Grammar) (s : List Char) (F i c j : Nat)
    (sts sts' : List (List Item)) (item : Item)
    (hj : j < (getSS sts i).length)
    (hitem : (getSS sts i).getD j ⟨⟨"", []⟩, 0, 0⟩ = item)
    (hp : processItem g s F i item sts = some sts') :
    innerLoop g s F i (c + 1) j sts = innerLoop g s F i c (j + 1) sts' := by
  rw [innerLoop, dif_pos hj]
  have hg : (getSS sts i).get ⟨j, hj⟩ = item := by
    rw [← hitem]
    rw [List.getD_eq_getElem?_getD, List.getElem?_eq_getElem hj]
    rfl
  rw [hg, hp]

theorem innerLoop_exit (g : Grammar) (s : List Char) (F i c j : Nat)
    (sts : List (List Item)) (hj : ¬ j < (getSS sts i).length) :
    innerLoop g s F i (c + 1) j sts = some sts := by
  rw [innerLoop, dif_neg hj]

theorem chartMidA2_shift (i : Nat) (h2 : 2 ≤ i) (v : List Item) :
    chartMidA2 i (SSA (i - 1)) v = chartMidA (i + 1) v := by
  unfold chartMidA2 chartMidA
  have h0 : i + 1 - 2 = (i - 2) + 1 := by omega
  rw [h0, List.range_succ, List.map_append]
  have h1 : i - 2 + 1 = i - 1 := by omega
  simp [h1]

theorem partA_SSA (i : Nat) (h2 : 2 ≤ i) :
    partA i ++ [⟨ruleC, 2, 0⟩] = SSA (i - 1) := by
  unfold partA SSA
  have h1 : i - 1 + 1 = i := by omega
  rw [h1]
  rfl


theorem sweepMidA (k i F : Nat) (h2 : 2 ≤ i) (hik : i < k) (hF : i + 9 ≤ F) :
    innerLoop gA (aTok k) F i F 0 (chartPreA i) = some (chartPreA (i + 1)) := by
  obtain ⟨c, rfl⟩ : ∃ c, F = c + 6 := ⟨F - 6, by omega⟩
  have hgC0 : getSS (chartPreA i) i = [⟨ruleC, 1, i - 1⟩] :=
    getSS_chartMidA_last i _ h2
  have hp0 : processItem gA (aTok k) (c + 6) i ⟨ruleC, 1, i - 1⟩ (chartPreA i) =
      some (chartMidA i (partA i)) := by
    rw [processItem_predictA (aTok k) (c + 6) i (chartPreA i) hgC0]
    unfold chartPreA
    rw [setSS_chartMidA_last i _ _ h2]
  have hgC1 : getSS (chartMidA i (partA i)) i = partA i :=
    getSS_chartMidA_last i _ h2
  have hlenC1 : (chartMidA i (partA i)).length = i + 1 :=
    length_chartMidA i h2 _
  have hp1 : processItem gA (aTok k) (c + 6) i ⟨ruleC, 0, i⟩ (chartMidA i (partA i)) =
      some (chartMidA2 i (partA i) [⟨ruleC, 1, i⟩]) := by
    rw [processItem_scanA k (c + 6) i _ hik hlenC1]
    rw [scan_chartMidA i _ _ h2]
  have hws2 : walkShape (chartMidA2 i (partA i) [⟨ruleC, 1, i⟩]) i :=
    walkShape_chartMidA2 i h2 _ _ (scanWait_partA i)
  have hgC2 : getSS (chartMidA2 i (partA i) [⟨ruleC, 1, i⟩]) i = partA i :=
    getSS_chartMidA2_last i _ _ h2
  have hadd2 : addIfAbsent (partA i) ⟨ruleC, 2, 0⟩ = SSA (i - 1) := by
    have hne : ¬ ((0 : Nat) = i - 1) := by omega
    have hne2 : ¬ ((i - 1 : Nat) = 0) := by omega
    rw [← partA_SSA i h2]
    simp [addIfAbsent, partA, ruleC, ruleN, hne, hne2]
  have hp2 : processItem gA (aTok k) (c + 6) i ⟨ruleN, 0, i⟩
      (chartMidA2 i (partA i) [⟨ruleC, 1, i⟩]) =
      some (chartMidA2 i (SSA (i - 1)) [⟨ruleC, 1, i⟩]) := by
    rw [processItem_rNA (aTok k) (c + 6) i i _ hws2 (by omega) (by omega) (by omega)]
    rw [hgC2, hadd2, setSS_chartMidA2_last i _ _ _ h2]
  have hws3 : walkShape (chartMidA2 i (SSA (i - 1)) [⟨ruleC, 1, i⟩]) i := by
    refine walkShape_chartMidA2 i h2 _ _ ?_
    exact scanWait_SSA (i - 1)
  have hgC3 : getSS (chartMidA2 i (SSA (i - 1)) [⟨ruleC, 1, i⟩]) i = SSA (i - 1) :=
    getSS_chartMidA2_last i _ _ h2
  have hadd3 : addIfAbsent (SSA (i - 1)) ⟨ruleC, 2, 0⟩ = SSA (i - 1) := by
    simp [addIfAbsent, SSA]
  have hp3 : processItem gA (aTok k) (c + 6) i ⟨ruleC, 2, i - 1⟩
      (chartMidA2 i (SSA (i - 1)) [⟨ruleC, 1, i⟩]) =
      some (chartMidA2 i (SSA (i - 1)) [⟨ruleC, 1, i⟩]) := by
    rw [processItem_topA (aTok k) (c + 6) i (i - 1) i _ hws3 (by omega) (by omega) (by omega)]
    rw [hgC3, hadd3, setSS_chartMidA2_last i _ _ _ h2]
  have hp4 : processItem gA (aTok k) (c + 6) i ⟨ruleC, 2, 0⟩
      (chartMidA2 i (SSA (i - 1)) [⟨ruleC, 1, i⟩]) =
      some (chartMidA2 i (SSA (i - 1)) [⟨ruleC, 1, i⟩]) := by
    refine processItem_zeroA (aTok k) (c + 6) i (c + 3) _ _ rfl rfl rfl ?_ (by omega)
    exact getSS_chartMidA2_0 i _ _
  rw [innerLoop_cons gA (aTok k) (c + 6) i (c + 5) 0 _ _ _
      (by rw [hgC0]; simp) (by rw [hgC0]; rfl) hp0]
  rw [innerLoop_cons gA (aTok k) (c + 6) i (c + 4) 1 _ _ _
      (by rw [hgC1]; simp [partA]) (by rw [hgC1]; rfl) hp1]
  rw [innerLoop_cons gA (aTok k) (c + 6) i (c + 3) 2 _ _ _
      (by rw [hgC2]; simp [partA]) (by rw [hgC2]; rfl) hp2]
  rw [innerLoop_cons gA (aTok k) (c + 6) i (c + 2) 3 _ _ _
      (by rw [hgC3]; simp [SSA]) (by rw [hgC3]; rfl) hp3]
  rw [innerLoop_cons gA (aTok k) (c + 6) i (c + 1) 4 _ _ _
      (by rw [hgC3]; simp [SSA]) (by rw [hgC3]; rfl) hp4]
  rw [innerLoop_exit gA (aTok k) (c + 6) i c 5 _ (by rw [hgC3]; simp [SSA])]
  rw [chartMidA2_shift i h2]
  rfl

theorem chartMidA_full (k : Nat) (h2 : 2 ≤ k) :
    chartMidA k (SSA (k - 1)) = chartFullA k := by
  unfold chartMidA chartFullA
  have h0 : k - 1 = (k - 2) + 1 := by omega
  rw [h0, List.range_succ, List.map_append]
  have h1 : k - 2 + 1 = k - 1 := by omega
  simp [h1]

theorem sweepEndA (k F : Nat) (h2 : 2 ≤ k) (hF : k + 9 ≤ F) :
    innerLoop gA (aTok k) F k F 0 (chartPreA k) = some (chartFullA k) := by
  obtain ⟨c, rfl⟩ : ∃ c, F = c + 6 := ⟨F - 6, by omega⟩
  have hgC0 : getSS (chartPreA k) k = [⟨ruleC, 1, k - 1⟩] :=
    getSS_chartMidA_last k _ h2
  have hp0 : processItem gA (aTok k) (c + 6) k ⟨ruleC, 1, k - 1⟩ (chartPreA k) =
      some (chartMidA k (partA k)) := by
    rw [processItem_predictA (aTok k) (c + 6) k (chartPreA k) hgC0]
    unfold chartPreA
    rw [setSS_chartMidA_last k _ _ h2]
  have hgC1 : getSS (chartMidA k (partA k)) k = partA k :=
    getSS_chartMidA_last k _ h2
  have hp1 : processItem gA (aTok k) (c + 6) k ⟨ruleC, 0, k⟩ (chartMidA k (partA k)) =
      some (chartMidA k (partA k)) := processItem_noscanA k (c + 6) _
  have hws2 : walkShape (chartMidA k (partA k)) k :=
    walkShape_chartMidA k h2 _ (scanWait_partA k)
  have hadd2 : addIfAbsent (partA k) ⟨ruleC, 2, 0⟩ = SSA (k - 1) := by
    have hne : ¬ ((0 : Nat) = k - 1) := by omega
    have hne2 : ¬ ((k - 1 : Nat) = 0) := by omega
    rw [← partA_SSA k h2]
    simp [addIfAbsent, partA, ruleC, ruleN, hne, hne2]
  have hp2 : processItem gA (aTok k) (c + 6) k ⟨ruleN, 0, k⟩ (chartMidA k (partA k)) =
      some (chartMidA k (SSA (k - 1))) := by
    rw [processItem_rNA (aTok k) (c + 6) k k _ hws2 (by omega) (by omega) (by omega)]
    rw [hgC1, hadd2, setSS_chartMidA_last k _ _ h2]
  have hws3 : walkShape (chartMidA k (SSA (k - 1))) k :=
    walkShape_chartMidA k h2 _ (scanWait_SSA (k - 1))
  have hgC3 : getSS (chartMidA k (SSA (k - 1))) k = SSA (k - 1) :=
    getSS_chartMidA_last k _ h2
  have hadd3 : addIfAbsent (SSA (k - 1)) ⟨ruleC, 2, 0⟩ = SSA (k - 1) := by
    simp [addIfAbsent, SSA]
  have hp3 : processItem gA (aTok k) (c + 6) k ⟨ruleC, 2, k - 1⟩
      (chartMidA k (SSA (k - 1))) = some (chartMidA k (SSA (k - 1))) := by
    rw [processItem_topA (aTok k) (c + 6) k (k - 1) k _ hws3 (by omega) (by omega) (by omega)]
    rw [hgC3, hadd3, setSS_chartMidA_last k _ _ h2]
  have hp4 : processItem gA (aTok k) (c + 6) k ⟨ruleC, 2, 0⟩
      (chartMidA k (SSA (k - 1))) = some (chartMidA k (SSA (k - 1))) := by
    refine processItem_zeroA (aTok k) (c + 6) k (c + 3) _ _ rfl rfl rfl ?_ (by omega)
    exact getSS_chartMidA_0 k _
  rw [innerLoop_cons gA (aTok k) (c + 6) k (c + 5) 0 _ _ _
      (by rw [hgC0]; simp) (by rw [hgC0]; rfl) hp0]
  rw [innerLoop_cons gA (aTok k) (c + 6) k (c + 4) 1 _ _ _
      (by rw [hgC1]; simp [partA]) (by rw [hgC1]; rfl) hp1]
  rw [innerLoop_cons gA (aTok k) (c + 6) k (c + 3) 2 _ _ _
      (by rw [hgC1]; simp [partA]) (by rw [hgC1]; rfl) hp2]
  rw [innerLoop_cons gA (aTok k) (c + 6) k (c + 2) 3 _ _ _
      (by rw [hgC3]; simp [SSA]) (by rw [hgC3]; rfl) hp3]
  rw [innerLoop_cons gA (aTok k) (c + 6) k (c + 1) 4 _ _ _
      (by rw [hgC3]; simp [SSA]) (by rw [hgC3]; rfl) hp4]
  rw [innerLoop_exit gA (aTok k) (c + 6) k c 5 _ (by rw [hgC3]; simp [SSA])]
  rw [chartMidA_full k h2]

theorem sweep0A (k F : Nat) (h2 : 2 ≤ k) (hF : 4 ≤ F) :
    innerLoop gA (aTok k) F 0 F 0 [S0A] = some [S0A, [⟨ruleC, 1, 0⟩]] := by
  obtain ⟨c, rfl⟩ : ∃ c, F = c + 3 := ⟨F - 3, by omega⟩
  have hp0 : processItem gA (aTok k) (c + 3) 0 ⟨ruleC, 0, 0⟩ [S0A] =
      some [S0A, [⟨ruleC, 1, 0⟩]] := by
    rw [processItem_scanA k (c + 3) 0 [S0A] (by omega) rfl]
    rfl
  have hp1 : processItem gA (aTok k) (c + 3) 0 ⟨ruleN, 0, 0⟩ [S0A, [⟨ruleC, 1, 0⟩]] =
      some [S0A, [⟨ruleC, 1, 0⟩]] :=
    processItem_zeroA (aTok k) (c + 3) 0 c _ _ rfl rfl rfl rfl rfl
  rw [innerLoop_cons gA (aTok k) (c + 3) 0 (c + 2) 0 _ _ _
      (by simp [getSS, S0A]) (by rfl) hp0]
  rw [innerLoop_cons gA (aTok k) (c + 3) 0 (c + 1) 1 _ _ _
      (by simp [getSS, S0A]) (by rfl) hp1]
  rw [innerLoop_exit gA (aTok k) (c + 3) 0 c 2 _ (by simp [getSS, S0A])]

theorem sweep1A (k F : Nat) (h2 : 2 ≤ k) (hF : 6 ≤ F) :
    innerLoop gA (aTok k) F 1 F 0 [S0A, [⟨ruleC, 1, 0⟩]] = some (chartPreA 2) := by
  obtain ⟨c, rfl⟩ : ∃ c, F = c + 5 := ⟨F - 5, by omega⟩
  have hp0 : processItem gA (aTok k) (c + 5) 1 ⟨ruleC, 1, 0⟩ [S0A, [⟨ruleC, 1, 0⟩]] =
      some [S0A, S1A] := by
    rw [processItem_predictA (aTok k) (c + 5) 1 [S0A, [⟨ruleC, 1, 0⟩]] rfl]
    rfl
  have hp1 : processItem gA (aTok k) (c + 5) 1 ⟨ruleC, 0, 1⟩ [S0A, S1A] =
      some (chartPreA 2) := by
    rw [processItem_scanA k (c + 5) 1 [S0A, S1A] (by omega) rfl]
    rfl
  have hws : walkShape (chartPreA 2) 1 := by
    constructor
    · exact scanWait_S0A
    · intro m h1 hm
      have : m = 1 := by omega
      subst this
      exact scanWait_S1A
  have hp2 : processItem gA (aTok k) (c + 5) 1 ⟨ruleN, 0, 1⟩ (chartPreA 2) =
      some (chartPreA 2) := by
    rw [processItem_rNA (aTok k) (c + 5) 1 1 _ hws (by omega) (by omega) (by omega)]
    rfl
  have hp3 : processItem gA (aTok k) (c + 5) 1 ⟨ruleC, 2, 0⟩ (chartPreA 2) =
      some (chartPreA 2) :=
    processItem_zeroA (aTok k) (c + 5) 1 (c + 2) _ _ rfl rfl rfl rfl rfl
  rw [innerLoop_cons gA (aTok k) (c + 5) 1 (c + 4) 0 _ _ _
      (by simp [getSS]) (by rfl) hp0]
  rw [innerLoop_cons gA (aTok k) (c + 5) 1 (c + 3) 1 _ _ _
      (by simp [getSS, S1A]) (by rfl) hp1]
  rw [innerLoop_cons gA (aTok k) (c + 5) 1 (c + 2) 2 _ _ _
      (by simp [chartPreA, chartMidA, getSS, S1A]) (by rfl) hp2]
  rw [innerLoop_cons gA (aTok k) (c + 5) 1 (c + 1) 3 _ _ _
      (by simp [chartPreA, chartMidA, getSS, S1A]) (by rfl) hp3]
  rw [innerLoop_exit gA (aTok k) (c + 5) 1 c 4 _
      (by simp [chartPreA, chartMidA, getSS, S1A])]

theorem outerLoop_cons (g : Grammar) (s : List Char) (F c i : Nat)
    (sts sts' : List (List Item)) (hi : i < sts.length)
    (hin : innerLoop g s F i F 0 sts = some sts') :
    outerLoop g s F (c + 1) i sts = outerLoop g s F c (i + 1) sts' := by
  rw [outerLoop, if_pos hi, hin]

theorem outerLoop_exit (g : Grammar) (s : List Char) (F c i : Nat)
    (sts : List (List Item)) (hi : ¬ i < sts.length) :
    outerLoop g s F (c + 1) i sts = some sts := by
  rw [outerLoop, if_neg hi]

theorem outerA (k : Nat) (h2 : 2 ≤ k) :
    ∀ (d e : Nat), d ≤ k - 2 → d + 2 ≤ e →
      outerLoop gA (aTok k) (2 * k + 9) e (k - d) (chartPreA (k - d)) =
        some (chartFullA k) := by
  intro d
  induction d with
  | zero =>
      intro e hd he
      obtain ⟨e', rfl⟩ : ∃ e', e = e' + 2 := ⟨e - 2, by omega⟩
      simp only [Nat.sub_zero]
      have hlen : (chartPreA k).length = k + 1 := length_chartMidA k h2 _
      rw [outerLoop_cons gA (aTok k) (2 * k + 9) (e' + 1) k _ (chartFullA k)
        (by omega) (sweepEndA k (2 * k + 9) h2 (by omega))]
      refine outerLoop_exit gA (aTok k) (2 * k + 9) e' (k + 1) _ ?_
      have : (chartFullA k).length = k + 1 := by
        rw [← chartMidA_full k h2]
        exact length_chartMidA k h2 _
      omega
  | succ d ih =>
      intro e hd he
      obtain ⟨e', rfl⟩ : ∃ e', e = e' + 1 := ⟨e - 1, by omega⟩
      have h2i : 2 ≤ k - (d + 1) := by omega
      have hik : k - (d + 1) < k := by omega
      have hlen : (chartPreA (k - (d + 1))).length = (k - (d + 1)) + 1 :=
        length_chartMidA _ h2i _
      rw [outerLoop_cons gA (aTok k) (2 * k + 9) e' (k - (d + 1)) _
        (chartPreA ((k - (d + 1)) + 1))
        (by omega) (sweepMidA k (k - (d + 1)) (2 * k + 9) h2i hik (by omega))]
      have heq : (k - (d + 1)) + 1 = k - d := by omega
      rw [heq]
      exact ih e' (by omega) (by omega)

theorem earleyA (k : Nat) (h2 : 2 ≤ k) :
    earley (2 * k + 9) gA (aTok k) = some (chartFullA k) := by
  show outerLoop gA (aTok k) (2 * k + 9) (2 * k + 9) 0 [S0A] = some (chartFullA k)
  show outerLoop gA (aTok k) (2 * k + 9) (2 * k + 8 + 1) 0 [S0A] = some (chartFullA k)
  rw [outerLoop_cons gA (aTok k) (2 * k + 9) (2 * k + 8) 0 [S0A] [S0A, [⟨ruleC, 1, 0⟩]]
    (by simp) (sweep0A k (2 * k + 9) h2 (by omega))]
  show outerLoop gA (aTok k) (2 * k + 9) (2 * k + 7 + 1) 1 [S0A, [⟨ruleC, 1, 0⟩]] =
    some (chartFullA k)
  rw [outerLoop_cons gA (aTok k) (2 * k + 9) (2 * k + 7) 1 _ (chartPreA 2)
    (by simp) (sweep1A k (2 * k + 9) h2 (by omega))]
  have hd : k - (k - 2) = 2 := by omega
  have hmain := outerA k h2 (k - 2) (2 * k + 7) (le_refl _) (by omega)
  rw [hd] at hmain
  exact hmain

theorem getSS_chartFullA (k j : Nat) (h2 : 2 ≤ j) (hj : j ≤ k) :
    getSS (chartFullA k) j = SSA (j - 1) := by
  obtain ⟨m', rfl⟩ : ∃ m', j = m' + 2 := ⟨j - 2, by omega⟩
  show getSS ((List.range (k - 1)).map (fun t => SSA (t + 1))) m' = SSA (m' + 1)
  unfold getSS
  rw [List.getD_eq_getElem?_getD, List.getElem?_eq_getElem (by simp; omega)]
  simp

/-- Claim C9: for the grammar `{A → a A | ε}` and every input `"a" * k`
with `k ≥ 2`, every state-set of the resulting chart at index `j ≥ 3`
has exactly as many items as the state-set at index 2 (namely 5),
independent of `k` — the reduction-chain compaction keeps the state-set
size constant along the right recursion. -/
theorem claimC9 (k F : Nat) (c : List (List Item)) (h2 : 2 ≤ k)
    (h : earley F gA (aTok k) = some c) :
    ∀ j, 3 ≤ j → j ≤ k → (getSS c j).length = (getSS c 2).length := by
  have hex := earleyA k h2
  have hm1 : earley (max F (2 * k + 9)) gA (aTok k) = some c :=
    earley_mono_le F _ (Nat.le_max_left _ _) gA (aTok k) c h
  have hm2 : earley (max F (2 * k + 9)) gA (aTok k) = some (chartFullA k) :=
    earley_mono_le _ _ (Nat.le_max_right _ _) gA (aTok k) _ hex
  have hc : c = chartFullA k := by
    rw [hm1] at hm2
    exact Option.some_inj.mp hm2
  subst hc
  intro j h3 hj
  rw [getSS_chartFullA k j (by omega) hj, getSS_chartFullA k 2 (by omega) (by omega)]
  rfl


/-- Claim C9 (witness): the statement evaluated at `k = 3`. -/
theorem claimC9_witness :
    (getSS ((earley 30 gA (aTok 3)).getD []) 3).length =
    (getSS ((earley 30 gA (aTok 3)).getD []) 2).length :=
  claimC9 3 30 ((earley 30 gA (aTok 3)).getD []) (by decide) (by decide) 3
    (by decide) (by decide)
